import Mathlib

/-!
Verification of the animation reconciliation core of the card-path UI
exercise.  The definitions below are a shallow embedding of the
TypeScript sources: game rules (game.ts), animation primitives
(anim.ts) and the main-loop reconciliation logic (main.ts).  Mutable
module-level variables become fields of an explicit state record;
animation closures become explicit state machines; the single throw
site (scheduleAnimation) becomes an Except value.
-/

set_option maxHeartbeats 1000000

namespace CCA

/-- Cell indices on the 3x3 board: game.ts restricts them to 0..8. -/
abbrev CellIndex := Fin 9

/-- A card only carries its cost (game.ts, interface Card). -/
structure Card where
  cost : Int
deriving DecidableEq, Repr

/-- Full game state (game.ts, interface GameState).  The 9-element board
array is modelled as a total function from cell indices. -/
structure GameState where
  deck : List Card
  discard : List Card
  board : CellIndex → Card
  path : List CellIndex
  health : Int
  energy : Int
  gold : Int

/-- Semantic events of one step (game.ts, type GameEvent).  The unused
EventType.Unknown variant is not part of the GameEvent union. -/
inductive GameEvent where
  | energyLoss (amount : Int)
  | pathSelection (selectedIndex : CellIndex)
deriving DecidableEq, Repr

/-- Result of a successful move (game.ts, interface StepResult). -/
structure StepResult where
  state : GameState
  events : List GameEvent

/-- game.ts indexToCoord: 2D coordinates of a 1D cell index. -/
def indexToCoord (index : CellIndex) : Int × Int :=
  (((index : Nat) % 3 : Nat), ((index : Nat) / 3 : Nat))

/-- game.ts isAdjacent: coordinates differ by at most one in each axis. -/
def isAdjacent (startIndex endIndex : CellIndex) : Bool :=
  let s := indexToCoord startIndex
  let e := indexToCoord endIndex
  decide (s.1 - 1 ≤ e.1) && decide (e.1 ≤ s.1 + 1) &&
    decide (s.2 - 1 ≤ e.2) && decide (e.2 ≤ s.2 + 1)

/-- The success path of game.ts next: push the selection on the path,
emit a PathSelection event, pay the card cost and emit an EnergyLoss
event when the cost is nonzero. -/
def nextValid (prev : GameState) (input : CellIndex) : Except String StepResult :=
  let selectedCard := prev.board input
  let events : List GameEvent :=
    [GameEvent.pathSelection input] ++
      (if selectedCard.cost ≠ 0 then [GameEvent.energyLoss selectedCard.cost] else [])
  .ok { state := { prev with path := prev.path ++ [input],
                             energy := prev.energy - selectedCard.cost },
        events := events }

/-- game.ts next: validity checks, then the state transition.  The
mutable clone of the source is replaced by pure record updates. -/
def next (prev : GameState) (input : CellIndex) : Except String StepResult :=
  if prev.path.contains input then
    .error "Invalid move, selection already on path."
  else
    match prev.path.getLast? with
    | some currentPos =>
        if isAdjacent currentPos input then nextValid prev input
        else .error "Invalid move, selection must be adjacent to last step."
    | none => nextValid prev input

/-- game.ts endTurn: clears the selected path. -/
def endTurn (prev : GameState) : GameState :=
  { prev with path := [] }

/-- render.ts UICard: card, screen position and animatable highlight. -/
structure UICard where
  card : Card
  position : Int × Int
  highlight : ℚ

/-- render.ts Scene: the visual state read by the renderer and mutated
by animations and by updateScene. -/
structure Scene where
  cards : CellIndex → UICard
  energy : Int
  energyChange : Int
  energyChangeOpacity : ℚ
  path : List CellIndex
  suggestedPath : Option (List CellIndex)

/-- render.ts initScene: build the scene for a fresh game state. -/
def initScene (gameState : GameState) : Scene :=
  { cards := fun index =>
      { card := gameState.board index,
        position := (((index : Nat) % 3 : Int) * 100 + 10, ((index : Nat) / 3 : Int) * 100 + 10),
        highlight := 0 },
    energy := gameState.energy,
    energyChange := 0,
    energyChangeOpacity := 0,
    path := gameState.path,
    suggestedPath := none }

/-- lodash clamp(number, lower, upper). -/
def clamp (x lower upper : ℚ) : ℚ := min (max x lower) upper

/-- The kinds of elementary animations built in anim.ts:
animateHighlight (a card index plus direction) and animateEnergyChange
(a displayed amount). -/
inductive AnimKind where
  | highlight (card : CellIndex) (reverse : Bool)
  | energyChange (amount : Int)
deriving DecidableEq, Repr

/-- The mutable closure state of an animation produced by anim.ts
animationUpdater: the captured prevTimestamp (number | undefined) and
accumulated elapsed time, together with the kind of updater. -/
structure AtomAnim where
  kind : AnimKind
  prevTimestamp : Option ℚ
  elapsed : ℚ
deriving DecidableEq, Repr

/-- A freshly constructed animation closure: prevTimestamp undefined,
elapsed 0 (anim.ts animationUpdater local state). -/
def mkAtom (kind : AnimKind) : AtomAnim :=
  { kind := kind, prevTimestamp := none, elapsed := 0 }

/-- The init callback of each animation kind (anim.ts).
animateHighlight has none; animateEnergyChange sets scene.energyChange. -/
def atomInit (kind : AnimKind) (sc : Scene) : Scene :=
  match kind with
  | .highlight _ _ => sc
  | .energyChange amount => { sc with energyChange := amount }

/-- The update callback of each animation kind (anim.ts).  Returns the
mutated scene and the finished flag.  animateHighlight tweens highlight
over 500ms; animateEnergyChange fades a popup over 1600ms, and in turbo
mode finishes immediately. -/
def atomUpdate (turboMode : Bool) (kind : AnimKind) (elapsed : ℚ) (sc : Scene) :
    Scene × Bool :=
  match kind with
  | .highlight card reverse =>
      if 500 ≤ elapsed then (sc, true)
      else
        let h := if !reverse then clamp (elapsed / 500) 0 1
                 else clamp (1 - elapsed / 500) 0 1
        let newCard : UICard := { sc.cards card with highlight := h }
        ({ sc with cards := Function.update sc.cards card newCard }, false)
  | .energyChange _ =>
      if turboMode || 1600 ≤ elapsed then (sc, true)
      else
        let opacity :=
          if elapsed < 200 then clamp (elapsed / 200) 0 1
          else if elapsed < 800 then 1
          else clamp (1 - (elapsed - 800) / 800) 0 1
        ({ sc with energyChangeOpacity := opacity }, false)

/-- The cleanup callback of each animation kind (anim.ts).
animateEnergyChange resets the popup opacity. -/
def atomCleanup (kind : AnimKind) (sc : Scene) : Scene :=
  match kind with
  | .highlight _ _ => sc
  | .energyChange _ => { sc with energyChangeOpacity := 0 }

/-- One invocation of the closure returned by anim.ts animationUpdater:
establish the baseline on the first call (a stored timestamp of 0 is
falsy in JS and also re-baselines), accumulate delta times speed, run
init while elapsed is 0, otherwise run the updater and, when it reports
done, the cleanup. -/
def atomStep (animationSpeed : ℚ) (turboMode : Bool) (timestamp : ℚ)
    (a : AtomAnim) (sc : Scene) : AtomAnim × Scene × Bool :=
  let prev : ℚ :=
    match a.prevTimestamp with
    | none => timestamp
    | some p => if p = 0 then timestamp else p
  let delta := timestamp - prev
  let elapsed := a.elapsed + delta * animationSpeed
  let a' : AtomAnim := { a with prevTimestamp := some timestamp, elapsed := elapsed }
  if elapsed = 0 then
    (a', atomInit a.kind sc, false)
  else
    let r := atomUpdate turboMode a.kind elapsed sc
    if r.2 then (a', atomCleanup a.kind r.1, true)
    else (a', r.1, false)

/-- anim.ts animateParallel: step every child each tick (no
short-circuiting), finished only when all children report finished.
The closure states of the children are the list entries. -/
def parStep (animationSpeed : ℚ) (turboMode : Bool) (timestamp : ℚ) :
    List AtomAnim → Scene → List AtomAnim × Scene × Bool
  | [], sc => ([], sc, true)
  | a :: rest, sc =>
      let r := atomStep animationSpeed turboMode timestamp a sc
      let rr := parStep animationSpeed turboMode timestamp rest r.2.1
      (r.1 :: rr.1, rr.2.1, r.2.2 && rr.2.2)

/-- main.ts interface AnimationStep: an input cell index and the events
it produced. -/
structure AnimationStep where
  input : CellIndex
  events : List GameEvent
deriving DecidableEq, Repr

/-- The module-level mutable state of main.ts, anim.ts and render.ts,
gathered into one record: committed state, preview stack, the two step
logs, the dirty flag, the scene, the scheduler slot and the turbo
globals.  A scheduled animation is the list of parallel children built
by getAnimation / getReverseAnimation. -/
structure SysState where
  committedState : GameState
  previewStack : List GameState
  animatedSteps : List AnimationStep
  desiredSteps : List AnimationStep
  checkForAnimation : Bool
  scene : Scene
  currentAnimation : Option (List AtomAnim)
  turboMode : Bool
  animationSpeed : ℚ

/-- main.ts expression previewStack.length ? last(previewStack)! : committedState. -/
def latestState (s : SysState) : GameState :=
  match s.previewStack.getLast? with
  | some g => g
  | none => s.committedState

/-- main.ts updateScene: mirror energy and path into the scene. -/
def updateScene (nextStep : GameState) (sc : Scene) : Scene :=
  { sc with energy := nextStep.energy, path := nextStep.path }

/-- main.ts getAnimation: one highlight-in per PathSelection, one
negated-amount energy popup per EnergyLoss, run in parallel; no
animation when the list is empty. -/
def getAnimation (events : List GameEvent) : Option (List AtomAnim) :=
  let newAnimations := events.map fun event =>
    match event with
    | .pathSelection selectedIndex => mkAtom (.highlight selectedIndex false)
    | .energyLoss amount => mkAtom (.energyChange (-amount))
  if newAnimations.length ≠ 0 then some newAnimations else none

/-- main.ts getReverseAnimation: highlight-out per PathSelection, all
EnergyLoss amounts summed into a single popup appended last (only when
the total is nonzero); no animation when nothing was collected. -/
def getReverseAnimation (events : List GameEvent) : Option (List AtomAnim) :=
  let highlightAnims := events.filterMap fun event =>
    match event with
    | .pathSelection selectedIndex => some (mkAtom (.highlight selectedIndex true))
    | .energyLoss _ => none
  let totalEnergyLoss : Int := (events.map fun event =>
    match event with
    | .energyLoss amount => amount
    | .pathSelection _ => 0).sum
  let newAnimations := highlightAnims ++
    (if totalEnergyLoss ≠ 0 then [mkAtom (.energyChange totalEnergyLoss)] else [])
  if newAnimations.length ≠ 0 then some newAnimations else none

/-- anim.ts updateAnimations: advance the current animation if any,
clear it when it reports done; returns the idle flag. -/
def updateAnimations (timestamp : ℚ) (s : SysState) : SysState × Bool :=
  match s.currentAnimation with
  | none => (s, true)
  | some anims =>
      let r := parStep s.animationSpeed s.turboMode timestamp anims s.scene
      if r.2.2 then ({ s with currentAnimation := none, scene := r.2.1 }, true)
      else ({ s with currentAnimation := some r.1, scene := r.2.1 }, false)

/-- anim.ts scheduleAnimation: install the animation, or throw when one
is already active. -/
def scheduleAnimation (anim : List AtomAnim) (s : SysState) : Except String SysState :=
  match s.currentAnimation with
  | some _ => .error "Already running an animation. This should never happen."
  | none => .ok { s with currentAnimation := some anim }

/-- anim.ts setTurbo. -/
def setTurbo (newState : Bool) (s : SysState) : SysState :=
  { s with turboMode := newState, animationSpeed := if newState then 4 else 1 }

/-- main.ts sharedPrefixLength: number of identical leading elements. -/
def sharedPrefixLength : List CellIndex → List CellIndex → Nat
  | a :: current, b :: desired =>
      if a = b then sharedPrefixLength current desired + 1 else 0
  | _, _ => 0

/-- main.ts undo: pop the preview stack and the desired log, mark
dirty, refresh the scene from the new latest state. -/
def undo (s : SysState) : SysState :=
  let s' := { s with previewStack := s.previewStack.dropLast,
                     desiredSteps := s.desiredSteps.dropLast,
                     checkForAnimation := true }
  { s' with scene := updateScene (latestState s') s'.scene }

/-- main.ts commit: fold the top preview state through endTurn, clear
the preview stack, refresh the scene; no-op on an empty stack.  The
step logs and the scheduler are left untouched (the source marks the
missing pieces with FIXME and TODO comments). -/
def commit (s : SysState) : SysState :=
  match s.previewStack.getLast? with
  | none => s
  | some previous =>
      let committed := endTurn previous
      { s with committedState := committed,
               previewStack := [],
               scene := updateScene committed s.scene }

/-- main.ts advance: try the move against the latest state; on error
log and report true; on success push the preview state, record the
desired step, mark dirty and refresh the scene. -/
def advance (s : SysState) (inputCellIndex : CellIndex) : Bool × SysState :=
  match next (latestState s) inputCellIndex with
  | Except.error _ => (true, s)
  | .ok nextStep =>
      (false,
       { s with previewStack := s.previewStack ++ [nextStep.state],
                desiredSteps := s.desiredSteps ++
                  [{ input := inputCellIndex, events := nextStep.events }],
                checkForAnimation := true,
                scene := updateScene nextStep.state s.scene })

/-- main.ts scheduleNextAnimation: find the shared input-sequence
portion, roll back the stale animated suffix in one merged reverse
animation, or animate the first missing desired step, or clear the
dirty flag once the logs agree. -/
def scheduleNextAnimation (s : SysState) : Except String SysState :=
  let sp := sharedPrefixLength (s.animatedSteps.map (·.input)) (s.desiredSteps.map (·.input))
  let rollback := s.animatedSteps.drop sp
  let animate := s.desiredSteps.drop sp
  if rollback.length ≠ 0 then
    let s' := { s with animatedSteps := s.animatedSteps.take sp }
    match getReverseAnimation (rollback.flatMap (·.events)) with
    | some anim => scheduleAnimation anim s'
    | none => .ok s'
  else
    match animate with
    | nextStep :: _ =>
        let s' := { s with animatedSteps := s.animatedSteps ++ [nextStep] }
        (match getAnimation nextStep.events with
         | some anim => scheduleAnimation anim s'
         | none => .ok s')
    | [] => .ok { s with checkForAnimation := false }

/-- main.ts update (one frame): advance the current animation and,
when the scheduler is idle and the dirty flag is set, reconcile. -/
def tick (timestamp : ℚ) (s : SysState) : Except String SysState :=
  let r := updateAnimations timestamp s
  if r.1.checkForAnimation && r.2 then scheduleNextAnimation r.1 else .ok r.1

/-- Run n frames at consecutive unit-spaced timestamps starting at t. -/
def runTicks (t : ℚ) : Nat → SysState → Except String SysState
  | 0, s => .ok s
  | n + 1, s => tick t s >>= runTicks (t + 1) n

/-- main.ts init: committed state from the game, empty stacks and logs,
clean flag, fresh scene, no animation, normal speed. -/
def initState (gameState : GameState) : SysState :=
  { committedState := gameState,
    previewStack := [],
    animatedSteps := [],
    desiredSteps := [],
    checkForAnimation := false,
    scene := initScene gameState,
    currentAnimation := none,
    turboMode := false,
    animationSpeed := 1 }

/-- A user-driven session operation issued between frames. -/
inductive UserOp where
  | adv (cell : CellIndex)
  | und
deriving DecidableEq, Repr

/-- Apply one session operation. -/
def applyOp (op : UserOp) (s : SysState) : SysState :=
  match op with
  | .adv cell => (advance s cell).2
  | .und => undo s

/-- Apply a sequence of session operations in order. -/
def applyOps (ops : List UserOp) (s : SysState) : SysState :=
  ops.foldl (fun s' op => applyOp op s') s

/-- States reachable from an initial state by any interleaving of user
operations and frames. -/
inductive Reachable : SysState → Prop where
  | init (g : GameState) : Reachable (initState g)
  | adv (s : SysState) (c : CellIndex) : Reachable s → Reachable (advance s c).2
  | und (s : SysState) : Reachable s → Reachable (undo s)
  | com (s : SysState) : Reachable s → Reachable (commit s)
  | turbo (s : SysState) (b : Bool) : Reachable s → Reachable (setTurbo b s)
  | tk (s s' : SysState) (ts : ℚ) : Reachable s → tick ts s = .ok s' → Reachable s'

end CCA

namespace CCA

/-- Repeated invocation of a single animation closure at the timestamps
f 0, f 1, ...: the n-th entry is the closure state, scene and returned
finished flag of invocation n.  This is how animateParallel keeps
invoking a child even after it reported finished. -/
def atomRun (animationSpeed : ℚ) (turboMode : Bool) (f : ℕ → ℚ) (sc : Scene)
    (a : AtomAnim) : ℕ → AtomAnim × Scene × Bool
  | 0 => atomStep animationSpeed turboMode (f 0) a sc
  | n + 1 =>
      let r := atomRun animationSpeed turboMode f sc a n
      atomStep animationSpeed turboMode (f (n + 1)) r.1 r.2.1

/-- A concrete deterministic game state used for witnesses: every board
card costs 1, nothing selected yet. -/
def gTest : GameState :=
  { deck := [], discard := [], board := fun _ => { cost := 1 },
    path := [], health := 7, energy := 7, gold := 0 }

/-- The desired-log entry produced by advancing to cell 4 on gTest. -/
def step4 : AnimationStep :=
  { input := 4, events := [GameEvent.pathSelection 4, GameEvent.energyLoss 1] }

/-- State after advance(4) from the initial gTest state, before any frame. -/
def sAdv4 : SysState := (advance (initState gTest) 4).2

/-- State after advance(4) then commit(), before any frame. -/
def sCommit : SysState := commit sAdv4

/-- State after advance(4), advance(1), undo(), undo() from the initial
gTest state, before any frame ran. -/
def sPushPop : SysState := applyOps [.adv 4, .adv 1, .und, .und] (initState gTest)

/-- A state whose animated log runs one step ahead of the desired log:
step 4 was animated and then undone before the next frame. -/
def sRolled : SysState :=
  { initState gTest with animatedSteps := [step4], checkForAnimation := true }

/-- Invocation timestamps 1, 601, 1201, ...: far enough apart that a
highlight animation finishes on its second invocation. -/
def tsWide : ℕ → ℚ := fun n => 1 + 600 * n

/-- A state with a freshly scheduled turbo-mode energy popup. -/
def sTurboBusy : SysState :=
  { initState gTest with
    currentAnimation := some [mkAtom (AnimKind.energyChange 5)],
    checkForAnimation := true,
    turboMode := true,
    animationSpeed := 4 }

end CCA

namespace CCA

/-- The input sequence of the animated log (what sharedPrefixLength is
fed as first argument). -/
def animatedInputs (s : SysState) : List CellIndex :=
  s.animatedSteps.map (·.input)

/-- The input sequence of the desired log. -/
def desiredInputs (s : SysState) : List CellIndex :=
  s.desiredSteps.map (·.input)

/-- Number of leading steps shared by the two logs of a state. -/
def spLen (s : SysState) : Nat :=
  sharedPrefixLength (animatedInputs s) (desiredInputs s)

/-- Termination measure for reconciliation: one unit for a pending
rollback, one per pending forward step, one for the dirty flag. -/
def reconMeasure (s : SysState) : Nat :=
  (if s.animatedSteps.length ≤ spLen s then 0 else 1) +
    (s.desiredSteps.length - spLen s) +
    (if s.checkForAnimation then 1 else 0)

/-- Predicted finished flag of an animation kind at a given elapsed
time (anim.ts updater thresholds). -/
def kindDoneB (turboMode : Bool) (kind : AnimKind) (elapsed : ℚ) : Bool :=
  match kind with
  | .highlight _ _ => decide (500 ≤ elapsed)
  | .energyChange _ => turboMode || decide (1600 ≤ elapsed)

/-- All parallel children predicted finished at a given elapsed time. -/
def allDoneB (turboMode : Bool) (l : List AtomAnim) (elapsed : ℚ) : Bool :=
  l.all fun a => kindDoneB turboMode a.kind elapsed

/-- An atom closure state mid-run: baseline established at p, elapsed e. -/
def atomAt (p e : ℚ) (a : AtomAnim) : AtomAnim :=
  { a with prevTimestamp := some p, elapsed := e }

end CCA

namespace CCA

/-- Unfolding lemma: empty first log. -/
theorem sharedPrefixLength_nil_left (l : List CellIndex) :
    sharedPrefixLength [] l = 0 := rfl

/-- Unfolding lemma: empty second log. -/
theorem sharedPrefixLength_nil_right (l : List CellIndex) :
    sharedPrefixLength l [] = 0 := by
  cases l <;> rfl

/-- Unfolding lemma: cons/cons case. -/
theorem sharedPrefixLength_cons_cons (a b : CellIndex) (as bs : List CellIndex) :
    sharedPrefixLength (a :: as) (b :: bs) =
      if a = b then sharedPrefixLength as bs + 1 else 0 := rfl

/-- The shared portion never exceeds the first log. -/
theorem sharedPrefixLength_le_left :
    ∀ a b : List CellIndex, sharedPrefixLength a b ≤ a.length := by
  intro a
  induction a with
  | nil => intro b; simp [sharedPrefixLength_nil_left]
  | cons x xs ih =>
      intro b
      cases b with
      | nil => simp [sharedPrefixLength_nil_right]
      | cons y ys =>
          rw [sharedPrefixLength_cons_cons]
          by_cases h : x = y
          · simpa [h, List.length_cons, Nat.succ_le_succ_iff] using ih ys
          · simp [h]

/-- The shared portion never exceeds the second log. -/
theorem sharedPrefixLength_le_right :
    ∀ a b : List CellIndex, sharedPrefixLength a b ≤ b.length := by
  intro a
  induction a with
  | nil => intro b; simp [sharedPrefixLength_nil_left]
  | cons x xs ih =>
      intro b
      cases b with
      | nil => simp [sharedPrefixLength_nil_right]
      | cons y ys =>
          rw [sharedPrefixLength_cons_cons]
          by_cases h : x = y
          · simpa [h, List.length_cons, Nat.succ_le_succ_iff] using ih ys
          · simp [h]

/-- Both logs agree on the shared portion. -/
theorem take_sharedPrefixLength_eq :
    ∀ a b : List CellIndex,
      a.take (sharedPrefixLength a b) = b.take (sharedPrefixLength a b) := by
  intro a
  induction a with
  | nil => intro b; simp [sharedPrefixLength_nil_left]
  | cons x xs ih =>
      intro b
      cases b with
      | nil => simp [sharedPrefixLength_nil_right]
      | cons y ys =>
          rw [sharedPrefixLength_cons_cons]
          by_cases h : x = y
          · simp [h, ih ys]
          · simp [h]

/-- Taking a shared portion of length j forces j below the computed
shared length: the scan stops exactly at the first difference. -/
theorem le_sharedPrefixLength_of_take_eq :
    ∀ (a b : List CellIndex) (j : Nat), a.take j = b.take j → j ≤ a.length →
      j ≤ sharedPrefixLength a b := by
  intro a
  induction a with
  | nil =>
      intro b j _ hj
      have hj0 : j = 0 := by simpa using hj
      subst hj0
      exact Nat.zero_le _
  | cons x xs ih =>
      intro b j htake hj
      cases j with
      | zero => exact Nat.zero_le _
      | succ j' =>
          cases b with
          | nil => simp at htake
          | cons y ys =>
              simp only [List.take_succ_cons, List.cons.injEq] at htake
              rw [sharedPrefixLength_cons_cons, if_pos htake.1]
              have := ih ys j' htake.2 (by simpa using hj)
              omega

/-- A truncation of the second log shares exactly its own length. -/
theorem sharedPrefixLength_take_left (l : List CellIndex) :
    ∀ k : Nat, sharedPrefixLength (l.take k) l = min k l.length := by
  induction l with
  | nil => intro k; simp [sharedPrefixLength_nil_right]
  | cons x xs ih =>
      intro k
      cases k with
      | zero => simp [sharedPrefixLength_nil_left]
      | succ k' =>
          rw [List.take_succ_cons, sharedPrefixLength_cons_cons, if_pos rfl, ih k',
            List.length_cons]
          exact (Nat.succ_min_succ k' xs.length).symm

/-- Logs with full shared length are equal. -/
theorem eq_of_sharedPrefixLength_full (a b : List CellIndex)
    (ha : a.length ≤ sharedPrefixLength a b) (hb : b.length ≤ sharedPrefixLength a b) :
    a = b := by
  have h1 : a.take (sharedPrefixLength a b) = a :=
    List.take_of_length_le ha
  have h2 : b.take (sharedPrefixLength a b) = b :=
    List.take_of_length_le hb
  rw [← h1, take_sharedPrefixLength_eq, h2]

end CCA

namespace CCA

/-- With no active animation the per-frame animation pass is a no-op
reporting idle. -/
theorem updateAnimations_none (timestamp : ℚ) (s : SysState)
    (h : s.currentAnimation = none) : updateAnimations timestamp s = (s, true) := by
  simp [updateAnimations, h]

/-- Whenever the animation pass reports idle, the scheduler slot is
empty afterwards. -/
theorem updateAnimations_done (timestamp : ℚ) (s : SysState)
    (h : (updateAnimations timestamp s).2 = true) :
    (updateAnimations timestamp s).1.currentAnimation = none := by
  unfold updateAnimations at *
  cases hc : s.currentAnimation with
  | none => simp [hc]
  | some anims =>
      simp only [hc] at h ⊢
      by_cases hdone : (parStep s.animationSpeed s.turboMode timestamp anims s.scene).2.2
      · simp [hdone]
      · simp [hdone] at h

/-- Scheduling with an idle scheduler succeeds and installs the
animation. -/
theorem scheduleAnimation_ok (anim : List AtomAnim) (s : SysState)
    (h : s.currentAnimation = none) :
    scheduleAnimation anim s = .ok { s with currentAnimation := some anim } := by
  simp [scheduleAnimation, h]

/-- Rollback case of reconciliation: when the animated log has a stale
suffix, it is truncated in one shot and the single merged reverse
animation (if any derives) is installed; the desired log and the dirty
flag are untouched. -/
theorem scheduleNextAnimation_rollback (s : SysState)
    (hcur : s.currentAnimation = none)
    (hroll : s.animatedSteps.drop
      (sharedPrefixLength (s.animatedSteps.map (·.input)) (s.desiredSteps.map (·.input))) ≠ []) :
    scheduleNextAnimation s = .ok
      { s with
        animatedSteps := s.animatedSteps.take
          (sharedPrefixLength (s.animatedSteps.map (·.input)) (s.desiredSteps.map (·.input))),
        currentAnimation := getReverseAnimation
          ((s.animatedSteps.drop
            (sharedPrefixLength (s.animatedSteps.map (·.input)) (s.desiredSteps.map (·.input)))).flatMap
            (·.events)) } := by
  have hlen : ¬ (s.animatedSteps.drop
      (sharedPrefixLength (s.animatedSteps.map (·.input)) (s.desiredSteps.map (·.input)))).length = 0 :=
    fun h0 => hroll (List.length_eq_zero.mp h0)
  simp only [scheduleNextAnimation, ne_eq]
  rw [if_pos hlen]
  cases hrev : getReverseAnimation
      ((s.animatedSteps.drop
        (sharedPrefixLength (s.animatedSteps.map (·.input)) (s.desiredSteps.map (·.input)))).flatMap
        (·.events)) with
  | none => rw [hcur]
  | some anim => simp [scheduleAnimation, hcur]

/-- Forward case of reconciliation: with no stale suffix and a pending
desired step, exactly the first pending step is appended and its
forward animation (if any derives) installed. -/
theorem scheduleNextAnimation_forward (s : SysState)
    (hcur : s.currentAnimation = none)
    (nextStep : AnimationStep) (rest : List AnimationStep)
    (hroll : s.animatedSteps.drop
      (sharedPrefixLength (s.animatedSteps.map (·.input)) (s.desiredSteps.map (·.input))) = [])
    (hanim : s.desiredSteps.drop
      (sharedPrefixLength (s.animatedSteps.map (·.input)) (s.desiredSteps.map (·.input))) =
      nextStep :: rest) :
    scheduleNextAnimation s = .ok
      { s with animatedSteps := s.animatedSteps ++ [nextStep],
               currentAnimation := getAnimation nextStep.events } := by
  simp only [scheduleNextAnimation, ne_eq]
  rw [hroll, hanim]
  simp only [List.length_nil, not_true_eq_false, if_false]
  cases hfw : getAnimation nextStep.events with
  | none => rw [hcur]
  | some anim => simp [scheduleAnimation, hcur]

/-- Caught-up case of reconciliation: both suffixes empty, the dirty
flag is cleared and nothing is scheduled. -/
theorem scheduleNextAnimation_clear (s : SysState)
    (hroll : s.animatedSteps.drop
      (sharedPrefixLength (s.animatedSteps.map (·.input)) (s.desiredSteps.map (·.input))) = [])
    (hanim : s.desiredSteps.drop
      (sharedPrefixLength (s.animatedSteps.map (·.input)) (s.desiredSteps.map (·.input))) = []) :
    scheduleNextAnimation s = .ok { s with checkForAnimation := false } := by
  simp only [scheduleNextAnimation, ne_eq]
  rw [hroll, hanim]
  simp only [List.length_nil, not_true_eq_false, if_false]

/-- Reconciliation never throws when the scheduler is idle. -/
theorem scheduleNextAnimation_ok (s : SysState) (hcur : s.currentAnimation = none) :
    ∃ s', scheduleNextAnimation s = .ok s' := by
  cases hroll : s.animatedSteps.drop
      (sharedPrefixLength (s.animatedSteps.map (·.input)) (s.desiredSteps.map (·.input))) with
  | cons a as =>
      refine ⟨_, scheduleNextAnimation_rollback s hcur ?_⟩
      rw [hroll]; simp
  | nil =>
      cases hanim : s.desiredSteps.drop
          (sharedPrefixLength (s.animatedSteps.map (·.input)) (s.desiredSteps.map (·.input))) with
      | cons d ds => exact ⟨_, scheduleNextAnimation_forward s hcur d ds hroll hanim⟩
      | nil => exact ⟨_, scheduleNextAnimation_clear s hroll hanim⟩

/-- One frame never throws, from any state whatsoever: reconciliation
only runs after the animation pass reported idle. -/
theorem tick_ok (timestamp : ℚ) (s : SysState) :
    ∃ s', tick timestamp s = .ok s' := by
  unfold tick
  by_cases hcond : ((updateAnimations timestamp s).1.checkForAnimation &&
      (updateAnimations timestamp s).2) = true
  · rw [if_pos hcond]
    exact scheduleNextAnimation_ok _ (updateAnimations_done timestamp s
      (by exact (Bool.and_eq_true _ _).mp hcond |>.2))
  · rw [if_neg hcond]
    exact ⟨_, rfl⟩

end CCA

namespace CCA

/-- First invocation of a fresh animation closure: baseline only, init
side effects, finished flag false, whatever the speed or turbo mode. -/
theorem atomStep_fresh (animationSpeed : ℚ) (turboMode : Bool) (timestamp : ℚ)
    (kind : AnimKind) (sc : Scene) :
    atomStep animationSpeed turboMode timestamp (mkAtom kind) sc =
      (atomAt timestamp 0 (mkAtom kind), atomInit kind sc, false) := by
  simp [atomStep, mkAtom, atomAt, sub_self]

/-- The closure state after any non-initial invocation: baseline moves
to the new timestamp, elapsed advances by delta times speed. -/
theorem atomStep_running_fst (animationSpeed : ℚ) (turboMode : Bool) (timestamp p : ℚ)
    (a : AtomAnim) (sc : Scene) (hp : a.prevTimestamp = some p) (hp0 : ¬ p = 0) :
    (atomStep animationSpeed turboMode timestamp a sc).1 =
      atomAt timestamp (a.elapsed + (timestamp - p) * animationSpeed) a := by
  simp only [atomStep, hp, if_neg hp0, atomAt]
  split
  · rfl
  · split <;> rfl

/-- The finished flag of a non-initial invocation with nonzero new
elapsed time follows the kind's duration threshold. -/
theorem atomStep_running_done (animationSpeed : ℚ) (turboMode : Bool) (timestamp p : ℚ)
    (a : AtomAnim) (sc : Scene) (hp : a.prevTimestamp = some p) (hp0 : ¬ p = 0)
    (hne : ¬ a.elapsed + (timestamp - p) * animationSpeed = 0) :
    (atomStep animationSpeed turboMode timestamp a sc).2.2 =
      kindDoneB turboMode a.kind (a.elapsed + (timestamp - p) * animationSpeed) := by
  simp only [atomStep, hp, if_neg hp0, if_neg hne]
  cases hk : a.kind with
  | highlight card reverse =>
      by_cases h5 : (500 : ℚ) ≤ a.elapsed + (timestamp - p) * animationSpeed
      · simp [atomUpdate, kindDoneB, h5]
      · simp [atomUpdate, kindDoneB, h5]
  | energyChange amount =>
      by_cases hq : turboMode = true ∨ (1600 : ℚ) ≤ a.elapsed + (timestamp - p) * animationSpeed
      · simp [atomUpdate, kindDoneB, hq]
      · push_neg at hq
        simp [atomUpdate, kindDoneB, hq.1, hq.2, not_le.mpr hq.2]

/-- First invocation of a freshly scheduled parallel animation: every
child establishes its baseline and the whole reports finished only when
there are no children. -/
theorem parStep_fresh (animationSpeed : ℚ) (turboMode : Bool) (timestamp : ℚ)
    (l : List AtomAnim) (sc : Scene) (hfresh : ∀ a ∈ l, a = mkAtom a.kind) :
    (parStep animationSpeed turboMode timestamp l sc).1 = l.map (atomAt timestamp 0) ∧
    (parStep animationSpeed turboMode timestamp l sc).2.2 = l.isEmpty := by
  induction l generalizing sc with
  | nil => simp [parStep]
  | cons a rest ih =>
      have ha := hfresh a (List.mem_cons_self a rest)
      have hrest : ∀ x ∈ rest, x = mkAtom x.kind :=
        fun x hx => hfresh x (List.mem_cons_of_mem a hx)
      obtain ⟨k, hk⟩ : ∃ k, a = mkAtom k := ⟨a.kind, ha⟩
      subst hk
      simp only [parStep, atomStep_fresh]
      refine ⟨?_, ?_⟩
      · simp only [List.map_cons]
        rw [(ih _ hrest).1]
      · simp [(ih _ hrest).2]

/-- Later invocation of a parallel animation whose children share a
nonzero baseline p and elapsed E: every child advances in lockstep and
the whole reports finished exactly when all thresholds are met. -/
theorem parStep_running (animationSpeed : ℚ) (turboMode : Bool) (timestamp p E : ℚ)
    (l : List AtomAnim) (sc : Scene) (hp0 : ¬ p = 0)
    (hne : ¬ E + (timestamp - p) * animationSpeed = 0)
    (hsync : ∀ a ∈ l, a.prevTimestamp = some p ∧ a.elapsed = E) :
    (parStep animationSpeed turboMode timestamp l sc).1 =
      l.map (atomAt timestamp (E + (timestamp - p) * animationSpeed)) ∧
    (parStep animationSpeed turboMode timestamp l sc).2.2 =
      allDoneB turboMode l (E + (timestamp - p) * animationSpeed) := by
  induction l generalizing sc with
  | nil => simp [parStep, allDoneB]
  | cons a rest ih =>
      have ha := hsync a (List.mem_cons_self a rest)
      have hrest : ∀ x ∈ rest, x.prevTimestamp = some p ∧ x.elapsed = E :=
        fun x hx => hsync x (List.mem_cons_of_mem a hx)
      have hfst := atomStep_running_fst animationSpeed turboMode timestamp p a sc ha.1 hp0
      have hdone := atomStep_running_done animationSpeed turboMode timestamp p a sc ha.1 hp0
        (by rw [ha.2]; exact hne)
      rw [ha.2] at hfst hdone
      simp only [parStep]
      refine ⟨?_, ?_⟩
      · simp only [List.map_cons]
        rw [hfst, (ih _ hrest).1]
      · rw [hdone, (ih _ hrest).2]
        simp [allDoneB]

/-- A frame on a freshly scheduled nonempty animation: baselines are
established, nothing finishes, no reconciliation runs. -/
theorem tick_fresh_busy (timestamp : ℚ) (s : SysState) (l : List AtomAnim)
    (hcur : s.currentAnimation = some l) (hne : l ≠ [])
    (hfresh : ∀ a ∈ l, a = mkAtom a.kind) :
    ∃ sc', tick timestamp s = .ok
      { s with currentAnimation := some (l.map (atomAt timestamp 0)), scene := sc' } := by
  have hpar := parStep_fresh s.animationSpeed s.turboMode timestamp l s.scene hfresh
  have hempty : l.isEmpty = false := by
    cases l with
    | nil => exact absurd rfl hne
    | cons a rest => rfl
  refine ⟨(parStep s.animationSpeed s.turboMode timestamp l s.scene).2.1, ?_⟩
  simp only [tick, updateAnimations, hcur, hpar.2, hempty, Bool.and_false, if_false,
    Bool.false_eq_true]
  rw [hpar.1]

/-- A frame on a running animation that does not yet meet all
thresholds: children advance in lockstep, no reconciliation runs. -/
theorem tick_running_busy (timestamp p E : ℚ) (s : SysState) (l : List AtomAnim)
    (hcur : s.currentAnimation = some l)
    (hp0 : ¬ p = 0) (hne : ¬ E + (timestamp - p) * s.animationSpeed = 0)
    (hsync : ∀ a ∈ l, a.prevTimestamp = some p ∧ a.elapsed = E)
    (hnotdone : allDoneB s.turboMode l (E + (timestamp - p) * s.animationSpeed) = false) :
    ∃ sc', tick timestamp s = .ok
      { s with
        currentAnimation :=
            some (l.map (atomAt timestamp (E + (timestamp - p) * s.animationSpeed))),
        scene := sc' } := by
  have hpar := parStep_running s.animationSpeed s.turboMode timestamp p E l s.scene hp0 hne hsync
  refine ⟨(parStep s.animationSpeed s.turboMode timestamp l s.scene).2.1, ?_⟩
  simp only [tick, updateAnimations, hcur, hpar.2, hnotdone, Bool.and_false, if_false,
    Bool.false_eq_true]
  rw [hpar.1]

/-- A frame on a running animation that meets all thresholds: the
scheduler slot is cleared and, when the dirty flag is set,
reconciliation runs within the same frame. -/
theorem tick_running_finish (timestamp p E : ℚ) (s : SysState) (l : List AtomAnim)
    (hcur : s.currentAnimation = some l)
    (hp0 : ¬ p = 0) (hne : ¬ E + (timestamp - p) * s.animationSpeed = 0)
    (hsync : ∀ a ∈ l, a.prevTimestamp = some p ∧ a.elapsed = E)
    (hdone : allDoneB s.turboMode l (E + (timestamp - p) * s.animationSpeed) = true) :
    ∃ sc', tick timestamp s =
      (if s.checkForAnimation then
        scheduleNextAnimation { s with currentAnimation := none, scene := sc' }
      else .ok { s with currentAnimation := none, scene := sc' }) := by
  have hpar := parStep_running s.animationSpeed s.turboMode timestamp p E l s.scene hp0 hne hsync
  refine ⟨(parStep s.animationSpeed s.turboMode timestamp l s.scene).2.1, ?_⟩
  simp only [tick, updateAnimations, hcur, hpar.2, hdone, if_true, Bool.and_true]

/-- Atoms synced at a common baseline and elapsed time are fixed by
atomAt with those values. -/
theorem map_atomAt_self (l : List AtomAnim) (p E : ℚ)
    (hsync : ∀ a ∈ l, a.prevTimestamp = some p ∧ a.elapsed = E) :
    l.map (atomAt p E) = l := by
  induction l with
  | nil => rfl
  | cons a rest ih =>
      have ha := hsync a (List.mem_cons_self a rest)
      have hrest := fun x hx => hsync x (List.mem_cons_of_mem a hx)
      simp only [List.map_cons, ih hrest]
      cases a with
      | mk kind pt e =>
          obtain ⟨h1, h2⟩ := ha
          have h1' : pt = some p := h1
          have h2' : e = E := h2
          subst h1'
          subst h2'
          rfl

/-- atomAt keeps the kind, so the done predicate ignores it. -/
theorem allDoneB_map_atomAt (turboMode : Bool) (l : List AtomAnim) (p E x : ℚ) :
    allDoneB turboMode (l.map (atomAt p E)) x = allDoneB turboMode l x := by
  simp only [allDoneB, List.all_map]
  rfl

/-- Every animation kind is finished by elapsed time 1600. -/
theorem allDoneB_ge (turboMode : Bool) (l : List AtomAnim) (E : ℚ) (hE : 1600 ≤ E) :
    allDoneB turboMode l E = true := by
  simp only [allDoneB, List.all_eq_true]
  intro a _
  cases a.kind with
  | highlight card reverse =>
      simp only [kindDoneB, decide_eq_true_eq]
      linarith
  | energyChange amount =>
      simp only [kindDoneB, Bool.or_eq_true, decide_eq_true_eq]
      right; linarith

/-- The done predicate is monotone in elapsed time. -/
theorem allDoneB_mono (turboMode : Bool) (l : List AtomAnim) (E E' : ℚ) (hEE : E ≤ E')
    (h : allDoneB turboMode l E = true) : allDoneB turboMode l E' = true := by
  simp only [allDoneB, List.all_eq_true] at h ⊢
  intro a ha
  have hthis := h a ha
  cases hk : a.kind with
  | highlight card reverse =>
      rw [hk] at hthis
      simp only [kindDoneB, decide_eq_true_eq] at hthis ⊢
      linarith
  | energyChange amount =>
      rw [hk] at hthis
      simp only [kindDoneB, Bool.or_eq_true, decide_eq_true_eq] at hthis ⊢
      rcases hthis with h1 | h2
      · exact Or.inl h1
      · right; linarith

/-- The nonempty-guard pattern shared by the two derivation functions. -/
theorem ite_some_guard {L l : List AtomAnim}
    (h : (if L.length ≠ 0 then some L else none) = some l) : l = L ∧ L ≠ [] := by
  split at h
  · next hc => exact ⟨(Option.some.inj h).symm, fun h0 => hc (by simp [h0])⟩
  · exact Option.noConfusion h

/-- A derived forward animation is a nonempty list of fresh closures. -/
theorem getAnimation_fresh (events : List GameEvent) (l : List AtomAnim)
    (h : getAnimation events = some l) :
    l ≠ [] ∧ ∀ a ∈ l, a = mkAtom a.kind := by
  simp only [getAnimation] at h
  obtain ⟨rfl, hne⟩ := ite_some_guard h
  refine ⟨hne, ?_⟩
  intro a ha
  obtain ⟨e, _, he⟩ := List.mem_map.mp ha
  cases e with
  | pathSelection i => rw [← he]; rfl
  | energyLoss amt => rw [← he]; rfl

/-- A derived reverse animation is a nonempty list of fresh closures. -/
theorem getReverseAnimation_fresh (events : List GameEvent) (l : List AtomAnim)
    (h : getReverseAnimation events = some l) :
    l ≠ [] ∧ ∀ a ∈ l, a = mkAtom a.kind := by
  simp only [getReverseAnimation] at h
  obtain ⟨rfl, hne⟩ := ite_some_guard h
  refine ⟨hne, ?_⟩
  intro a ha
  rcases List.mem_append.mp ha with hmem | hmem
  · obtain ⟨e, _, he⟩ := List.mem_filterMap.mp hmem
    cases e with
    | pathSelection i =>
        have : mkAtom (AnimKind.highlight i true) = a := Option.some.inj he
        rw [← this]; rfl
    | energyLoss amt => exact Option.noConfusion he
  · split at hmem
    · have : a = mkAtom (AnimKind.energyChange _) := List.mem_singleton.mp hmem
      rw [this]; rfl
    · exact absurd hmem (List.not_mem_nil a)

/-- Frame runs compose. -/
theorem runTicks_add (m n : ℕ) (t : ℚ) (s : SysState) :
    runTicks t (m + n) s = runTicks t m s >>= runTicks (t + m) n := by
  induction m generalizing t s with
  | zero =>
      simp only [Nat.zero_add, Nat.cast_zero, add_zero]
      rfl
  | succ m ih =>
      have hsum : m + 1 + n = (m + n) + 1 := by omega
      rw [hsum]
      simp only [runTicks]
      cases htick : tick t s with
      | error e => rfl
      | ok s1 =>
          show runTicks (t + 1) (m + n) s1 =
            runTicks (t + 1) m s1 >>= runTicks (t + ((m + 1 : ℕ) : ℚ)) n
          rw [ih]
          have harg : t + 1 + (m : ℚ) = t + ((m + 1 : ℕ) : ℚ) := by push_cast; ring
          rw [harg]

/-- A single-frame run is just that frame. -/
theorem runTicks_one (t : ℚ) (s : SysState) : runTicks t 1 s = tick t s := by
  simp only [runTicks]
  cases htick : tick t s <;> rfl

/-- Running j frames over an animation whose thresholds are not yet met
advances every child in lockstep and changes nothing else. -/
theorem runTicks_busy (j : ℕ) :
    ∀ (t E : ℚ) (s : SysState) (l : List AtomAnim),
    s.currentAnimation = some l →
    (∀ a ∈ l, a.prevTimestamp = some (t - 1) ∧ a.elapsed = E) →
    ¬ t - 1 = 0 → 0 < t → 0 ≤ E → 1 ≤ s.animationSpeed →
    (∀ i : ℕ, 1 ≤ i → i ≤ j →
      allDoneB s.turboMode l (E + i * s.animationSpeed) = false) →
    ∃ sc', runTicks t j s = .ok
      { s with
        currentAnimation :=
            some (l.map (atomAt (t + j - 1) (E + j * s.animationSpeed))),
        scene := sc' } := by
  induction j with
  | zero =>
      intro t E s l hcur hsync ht1 ht hE hσ hnd
      refine ⟨s.scene, ?_⟩
      have e1 : t + ((0 : ℕ) : ℚ) - 1 = t - 1 := by push_cast; ring
      have e2 : E + ((0 : ℕ) : ℚ) * s.animationSpeed = E := by push_cast; ring
      rw [show ((0 : ℕ) : ℚ) = ((0 : ℕ) : ℚ) from rfl, e1, e2,
        map_atomAt_self l (t - 1) E hsync, ← hcur]
      rfl
  | succ j ih =>
      intro t E s l hcur hsync ht1 ht hE hσ hnd
      have e1 : t - (t - 1) = 1 := by ring
      have hne : ¬ E + (t - (t - 1)) * s.animationSpeed = 0 := by
        rw [e1, one_mul]
        intro h0
        linarith
      have hnotdone1 : allDoneB s.turboMode l (E + (t - (t - 1)) * s.animationSpeed) = false := by
        have harg : E + (t - (t - 1)) * s.animationSpeed =
            E + ((1 : ℕ) : ℚ) * s.animationSpeed := by push_cast; ring
        rw [harg]
        exact hnd 1 le_rfl (by omega)
      obtain ⟨sc1, htick⟩ := tick_running_busy t (t - 1) E s l hcur ht1 hne hsync hnotdone1
      have eσ : E + (t - (t - 1)) * s.animationSpeed = E + s.animationSpeed := by ring
      rw [eσ] at htick
      have hsync2 : ∀ a ∈ l.map (atomAt t (E + s.animationSpeed)),
          a.prevTimestamp = some (t + 1 - 1) ∧ a.elapsed = E + s.animationSpeed := by
        intro a ha
        obtain ⟨b, _, rfl⟩ := List.mem_map.mp ha
        have e2 : t + 1 - 1 = t := by ring
        rw [e2]
        exact ⟨rfl, rfl⟩
      have ih' := ih (t + 1) (E + s.animationSpeed)
        { s with
          currentAnimation := some (l.map (atomAt t (E + s.animationSpeed))),
          scene := sc1 }
        (l.map (atomAt t (E + s.animationSpeed))) rfl hsync2
        (by rw [show t + 1 - 1 = t by ring]; intro h0; rw [h0] at ht; exact lt_irrefl 0 ht)
        (by linarith) (by linarith) hσ
        (by
          intro i hi1 hij
          rw [allDoneB_map_atomAt]
          have harg : E + s.animationSpeed + (i : ℚ) * s.animationSpeed =
              E + ((i + 1 : ℕ) : ℚ) * s.animationSpeed := by push_cast; ring
          rw [harg]
          exact hnd (i + 1) (by omega) (by omega))
      obtain ⟨sc2, hrun⟩ := ih'
      refine ⟨sc2, ?_⟩
      show (tick t s >>= runTicks (t + 1) j) = _
      rw [htick]
      show runTicks (t + 1) j _ = _
      rw [hrun]
      have e3 : t + 1 + (j : ℚ) - 1 = t + ((j + 1 : ℕ) : ℚ) - 1 := by push_cast; ring
      have e4 : E + s.animationSpeed + (j : ℚ) * s.animationSpeed =
          E + ((j + 1 : ℕ) : ℚ) * s.animationSpeed := by push_cast; ring
      rw [List.map_map]
      rw [e3, e4]
      rfl

/-- Bind of an ok value reduces. -/
theorem exceptOkBind {ε α β : Type} (a : α) (f : α → Except ε β) :
    ((Except.ok a : Except ε α) >>= f) = f a := rfl

/-- A freshly scheduled nonempty animation runs for finitely many
frames; on the frame where it finishes, reconciliation runs again when
the dirty flag is set, on the state with an idle scheduler and
unchanged logs. -/
theorem runTicks_scheduled (s1 : SysState) (t1 : ℚ) (l : List AtomAnim)
    (hcur : s1.currentAnimation = some l) (hne : l ≠ [])
    (hfresh : ∀ a ∈ l, a = mkAtom a.kind)
    (ht : 0 < t1) (hσ : 1 ≤ s1.animationSpeed) :
    ∃ (j : ℕ) (sc' : Scene), runTicks t1 (j + 2) s1 =
      (if s1.checkForAnimation then
        scheduleNextAnimation { s1 with currentAnimation := none, scene := sc' }
      else .ok { s1 with currentAnimation := none, scene := sc' }) := by
  have hex : ∃ i : ℕ, allDoneB s1.turboMode l
      (((i + 1 : ℕ) : ℚ) * s1.animationSpeed) = true := by
    refine ⟨1599, allDoneB_ge _ _ _ ?_⟩
    push_cast
    nlinarith
  have hjdone := Nat.find_spec hex
  obtain ⟨sc1, htick1⟩ := tick_fresh_busy t1 s1 l hcur hne hfresh
  let l2 : List AtomAnim := l.map (atomAt t1 0)
  let s2 : SysState := { s1 with currentAnimation := some l2, scene := sc1 }
  have hsync2 : ∀ a ∈ l2, a.prevTimestamp = some (t1 + 1 - 1) ∧ a.elapsed = (0 : ℚ) := by
    intro a ha
    obtain ⟨b, _, rfl⟩ := List.mem_map.mp ha
    rw [show t1 + 1 - 1 = t1 by ring]
    exact ⟨rfl, rfl⟩
  have hbusy := runTicks_busy (Nat.find hex) (t1 + 1) 0 s2 l2 rfl hsync2
    (by rw [show t1 + 1 - 1 = t1 by ring]; intro h0; rw [h0] at ht; exact lt_irrefl 0 ht)
    (by linarith) le_rfl hσ
    (by
      intro i hi1 hij
      show allDoneB s1.turboMode l2 ((0 : ℚ) + (i : ℚ) * s1.animationSpeed) = false
      rw [show l2 = l.map (atomAt t1 0) from rfl, allDoneB_map_atomAt]
      have hi' : i - 1 + 1 = i := by omega
      have harg : (0 : ℚ) + (i : ℚ) * s1.animationSpeed =
          (((i - 1) + 1 : ℕ) : ℚ) * s1.animationSpeed := by
        rw [hi']; ring
      rw [harg]
      have hmin := Nat.find_min hex (show i - 1 < Nat.find hex by omega)
      simpa using hmin)
  obtain ⟨sc2, hrun⟩ := hbusy
  obtain ⟨sc3, htickF⟩ := tick_running_finish (t1 + 1 + (Nat.find hex : ℚ))
    (t1 + 1 + (Nat.find hex : ℚ) - 1) ((0 : ℚ) + (Nat.find hex : ℚ) * s2.animationSpeed)
    { s2 with
      currentAnimation := some (l2.map
        (atomAt (t1 + 1 + (Nat.find hex : ℚ) - 1)
          ((0 : ℚ) + (Nat.find hex : ℚ) * s2.animationSpeed))),
      scene := sc2 }
    (l2.map (atomAt (t1 + 1 + (Nat.find hex : ℚ) - 1)
      ((0 : ℚ) + (Nat.find hex : ℚ) * s2.animationSpeed)))
    rfl
    (by
      intro h0
      have hj0 : (0 : ℚ) ≤ (Nat.find hex : ℚ) := Nat.cast_nonneg _
      rw [show t1 + 1 + (Nat.find hex : ℚ) - 1 = t1 + (Nat.find hex : ℚ) by ring] at h0
      linarith)
    (by
      show ¬ (0 : ℚ) + (Nat.find hex : ℚ) * s1.animationSpeed +
        (t1 + 1 + (Nat.find hex : ℚ) - (t1 + 1 + (Nat.find hex : ℚ) - 1)) *
          s1.animationSpeed = 0
      have hj0 : (0 : ℚ) ≤ (Nat.find hex : ℚ) := Nat.cast_nonneg _
      have hm : (0 : ℚ) ≤ (Nat.find hex : ℚ) * s1.animationSpeed :=
        mul_nonneg hj0 (by linarith)
      intro h0
      rw [show t1 + 1 + (Nat.find hex : ℚ) - (t1 + 1 + (Nat.find hex : ℚ) - 1) = 1 by ring,
        one_mul] at h0
      linarith)
    (by
      intro a ha
      obtain ⟨b, _, rfl⟩ := List.mem_map.mp ha
      exact ⟨rfl, rfl⟩)
    (by
      show allDoneB s1.turboMode _ _ = true
      rw [show l2 = l.map (atomAt t1 0) from rfl, List.map_map]
      rw [show (atomAt (t1 + 1 + (Nat.find hex : ℚ) - 1)
          ((0 : ℚ) + (Nat.find hex : ℚ) * s2.animationSpeed) ∘ atomAt t1 0) =
          atomAt (t1 + 1 + (Nat.find hex : ℚ) - 1)
            ((0 : ℚ) + (Nat.find hex : ℚ) * s2.animationSpeed) from rfl]
      rw [allDoneB_map_atomAt]
      have harg : (0 : ℚ) + (Nat.find hex : ℚ) * s2.animationSpeed +
          (t1 + 1 + (Nat.find hex : ℚ) - (t1 + 1 + (Nat.find hex : ℚ) - 1)) *
            s1.animationSpeed =
          ((Nat.find hex + 1 : ℕ) : ℚ) * s1.animationSpeed := by
        show (0 : ℚ) + (Nat.find hex : ℚ) * s1.animationSpeed + _ = _
        push_cast
        ring
      rw [harg]
      exact hjdone)
  refine ⟨Nat.find hex, sc3, ?_⟩
  show (tick t1 s1 >>= runTicks (t1 + 1) (Nat.find hex + 1)) = _
  rw [htick1, exceptOkBind]
  show runTicks (t1 + 1) (Nat.find hex + 1) s2 = _
  rw [runTicks_add (Nat.find hex) 1, hrun, exceptOkBind, runTicks_one]
  exact htickF

/-- The shared length is bounded by the animated log. -/
theorem spLen_le_animated (s : SysState) : spLen s ≤ s.animatedSteps.length := by
  have := sharedPrefixLength_le_left (animatedInputs s) (desiredInputs s)
  simpa [spLen, animatedInputs] using this

/-- The shared length is bounded by the desired log. -/
theorem spLen_le_desired (s : SysState) : spLen s ≤ s.desiredSteps.length := by
  have := sharedPrefixLength_le_right (animatedInputs s) (desiredInputs s)
  simpa [spLen, desiredInputs] using this

/-- Truncating the animated log to the shared portion keeps the shared
length and empties the rollback suffix. -/
theorem spLen_after_rollback (s : SysState) (anims : Option (List AtomAnim))
    (sc : Scene) :
    spLen { s with animatedSteps := s.animatedSteps.take (spLen s),
                   currentAnimation := anims, scene := sc } = spLen s := by
  show sharedPrefixLength ((s.animatedSteps.take (spLen s)).map (·.input))
      (s.desiredSteps.map (·.input)) = spLen s
  rw [List.map_take]
  rw [show ((s.animatedSteps.map (·.input)).take (spLen s)) =
      ((s.desiredSteps.map (·.input)).take (spLen s)) from
    take_sharedPrefixLength_eq _ _]
  rw [sharedPrefixLength_take_left]
  exact min_eq_left (by simpa [List.length_map] using spLen_le_desired s)

/-- The rollback branch strictly decreases the measure. -/
theorem reconMeasure_rollback_lt (s : SysState) (anims : Option (List AtomAnim))
    (hroll : s.animatedSteps.drop (spLen s) ≠ []) :
    reconMeasure { s with animatedSteps := s.animatedSteps.take (spLen s),
                          currentAnimation := anims } < reconMeasure s := by
  have hAlen : ¬ s.animatedSteps.length ≤ spLen s := by
    intro hle
    exact hroll (List.drop_eq_nil_of_le hle)
  have hsp' := spLen_after_rollback s anims s.scene
  have hsp'' : spLen { s with animatedSteps := s.animatedSteps.take (spLen s), currentAnimation := anims } = spLen s := hsp'
  simp only [reconMeasure, hsp'']
  have htk : (s.animatedSteps.take (spLen s)).length = spLen s := by
    rw [List.length_take]
    exact min_eq_left (le_of_not_le hAlen)
  rw [htk]
  simp only [le_refl, if_true, if_neg hAlen]
  omega

/-- Appending the first pending desired step strictly decreases the
measure and extends the shared portion by one. -/
theorem reconMeasure_forward_lt (s : SysState) (anims : Option (List AtomAnim))
    (nextStep : AnimationStep) (rest : List AnimationStep)
    (hroll : s.animatedSteps.drop (spLen s) = [])
    (hanim : s.desiredSteps.drop (spLen s) = nextStep :: rest) :
    reconMeasure { s with animatedSteps := s.animatedSteps ++ [nextStep],
                          currentAnimation := anims } < reconMeasure s := by
  have hAle : s.animatedSteps.length ≤ spLen s := by
    by_contra hlt
    exact absurd hroll (by
      intro hnil
      exact hlt (List.drop_eq_nil_iff.mp hnil))
  have hAeq : s.animatedSteps.length = spLen s :=
    le_antisymm hAle (spLen_le_animated s)
  have hkD : spLen s < s.desiredSteps.length := by
    by_contra hge
    have : s.desiredSteps.drop (spLen s) = [] :=
      List.drop_eq_nil_of_le (le_of_not_lt hge)
    rw [this] at hanim
    exact List.noConfusion hanim
  have hhead : s.desiredSteps[spLen s]? = some nextStep := by
    have := List.head?_drop s.desiredSteps (spLen s)
    rw [hanim] at this
    exact this.symm
  have hAi : s.animatedSteps.map (·.input) =
      (s.desiredSteps.map (·.input)).take (spLen s) := by
    have h1 : (s.animatedSteps.map (·.input)).take (spLen s) =
        s.animatedSteps.map (·.input) :=
      List.take_of_length_le (by simpa [List.length_map] using hAle)
    rw [← h1]
    exact take_sharedPrefixLength_eq _ _
  have hAi' : (s.animatedSteps ++ [nextStep]).map (·.input) =
      (s.desiredSteps.map (·.input)).take (spLen s + 1) := by
    rw [List.map_append, hAi, List.take_succ]
    congr 1
    rw [List.getElem?_map, hhead]
    rfl
  have hsp' : spLen { s with animatedSteps := s.animatedSteps ++ [nextStep], currentAnimation := anims } = spLen s + 1 := by
    show sharedPrefixLength ((s.animatedSteps ++ [nextStep]).map (·.input))
        (s.desiredSteps.map (·.input)) = spLen s + 1
    rw [hAi', sharedPrefixLength_take_left]
    exact min_eq_left (by simpa [List.length_map] using hkD)
  simp only [reconMeasure, hsp']
  rw [List.length_append]
  simp only [List.length_cons, List.length_nil]
  rw [hAeq]
  simp only [le_refl, if_true]
  omega

/-- Clearing the dirty flag strictly decreases the measure. -/
theorem reconMeasure_clear_lt (s : SysState) (hd : s.checkForAnimation = true) :
    reconMeasure { s with checkForAnimation := false } < reconMeasure s := by
  have hsp : spLen { s with checkForAnimation := false } = spLen s := rfl
  simp [reconMeasure, hsp, hd]

/-- When both suffixes are empty the two logs agree on inputs. -/
theorem inputs_eq_of_caught_up (s : SysState)
    (hroll : s.animatedSteps.drop (spLen s) = [])
    (hanim : s.desiredSteps.drop (spLen s) = []) :
    animatedInputs s = desiredInputs s := by
  have hA : s.animatedSteps.length ≤ spLen s := List.drop_eq_nil_iff.mp hroll
  have hD : s.desiredSteps.length ≤ spLen s := List.drop_eq_nil_iff.mp hanim
  exact eq_of_sharedPrefixLength_full (animatedInputs s) (desiredInputs s)
    (by simpa [animatedInputs, List.length_map] using hA)
    (by simpa [desiredInputs, List.length_map] using hD)

/-- The measure only looks at the logs and the dirty flag. -/
theorem reconMeasure_eq_of_fields (x y : SysState)
    (h1 : x.animatedSteps = y.animatedSteps) (h2 : x.desiredSteps = y.desiredSteps)
    (h3 : x.checkForAnimation = y.checkForAnimation) :
    reconMeasure x = reconMeasure y := by
  simp [reconMeasure, spLen, animatedInputs, desiredInputs, h1, h2, h3]

/-- Main convergence induction: from any idle state whose dirty flag is
honest (clear only when the logs agree) and whose speed multiplier is
at least one, finitely many frames reach a clean, idle, log-agreeing
state. -/
theorem convergesFrom :
    ∀ (μ : ℕ) (s : SysState) (t : ℚ), reconMeasure s ≤ μ → 0 < t →
    1 ≤ s.animationSpeed → s.currentAnimation = none →
    (s.checkForAnimation = false → animatedInputs s = desiredInputs s) →
    ∃ (N : ℕ) (s' : SysState), runTicks t N s = .ok s' ∧
      s'.checkForAnimation = false ∧ s'.currentAnimation = none ∧
      animatedInputs s' = desiredInputs s' := by
  intro μ
  induction μ with
  | zero =>
      intro s t hμ ht hσ hcur hgood
      have hd : s.checkForAnimation = false := by
        cases hc : s.checkForAnimation
        · rfl
        · exfalso
          have h1 : 1 ≤ reconMeasure s := by
            simp [reconMeasure, hc]
          omega
      exact ⟨0, s, rfl, hd, hcur, hgood hd⟩
  | succ μ ih =>
      intro s t hμ ht hσ hcur hgood
      cases hd : s.checkForAnimation with
      | false => exact ⟨0, s, rfl, hd, hcur, hgood hd⟩
      | true =>
          have htick : tick t s = scheduleNextAnimation s := by
            rw [tick, updateAnimations_none t s hcur, hd]
            rfl
          cases hroll : s.animatedSteps.drop
              (sharedPrefixLength (s.animatedSteps.map (·.input))
                (s.desiredSteps.map (·.input))) with
          | cons b bs =>
              have hrollne : s.animatedSteps.drop
                  (sharedPrefixLength (s.animatedSteps.map (·.input))
                    (s.desiredSteps.map (·.input))) ≠ [] := by
                rw [hroll]
                exact List.cons_ne_nil b bs
              have hrec := scheduleNextAnimation_rollback s hcur hrollne
              have hrollsp : s.animatedSteps.drop (spLen s) ≠ [] := hrollne
              cases hrev : getReverseAnimation
                  ((s.animatedSteps.drop
                    (sharedPrefixLength (s.animatedSteps.map (·.input))
                      (s.desiredSteps.map (·.input)))).flatMap (·.events)) with
              | none =>
                  rw [hrev] at hrec
                  have hm : reconMeasure { s with animatedSteps := s.animatedSteps.take (sharedPrefixLength (s.animatedSteps.map (·.input)) (s.desiredSteps.map (·.input))), currentAnimation := (none : Option (List AtomAnim)) } < reconMeasure s :=
                    reconMeasure_rollback_lt s none hrollsp
                  obtain ⟨N, s', hrun, hp1, hp2, hp3⟩ := ih
                    { s with animatedSteps := s.animatedSteps.take (sharedPrefixLength (s.animatedSteps.map (·.input)) (s.desiredSteps.map (·.input))), currentAnimation := (none : Option (List AtomAnim)) }
                    (t + 1) (by omega) (by linarith) hσ rfl
                    (by
                      intro hfalse
                      exact absurd (hd ▸ hfalse) (by simp))
                  refine ⟨N + 1, s', ?_, hp1, hp2, hp3⟩
                  show (tick t s >>= runTicks (t + 1) N) = .ok s'
                  rw [htick, hrec, exceptOkBind]
                  exact hrun
              | some lrev =>
                  rw [hrev] at hrec
                  obtain ⟨hlne, hlfresh⟩ := getReverseAnimation_fresh _ lrev hrev
                  obtain ⟨j, sc', hsched⟩ := runTicks_scheduled
                    { s with animatedSteps := s.animatedSteps.take (sharedPrefixLength (s.animatedSteps.map (·.input)) (s.desiredSteps.map (·.input))), currentAnimation := some lrev }
                    (t + 1) lrev rfl hlne hlfresh (by linarith) hσ
                  rw [if_pos (show _ = true from hd)] at hsched
                  have hm : reconMeasure { s with animatedSteps := s.animatedSteps.take (sharedPrefixLength (s.animatedSteps.map (·.input)) (s.desiredSteps.map (·.input))), currentAnimation := none, scene := sc' } < reconMeasure s := by
                    have heq := reconMeasure_eq_of_fields
                      { s with animatedSteps := s.animatedSteps.take (sharedPrefixLength (s.animatedSteps.map (·.input)) (s.desiredSteps.map (·.input))), currentAnimation := none, scene := sc' }
                      { s with animatedSteps := s.animatedSteps.take (sharedPrefixLength (s.animatedSteps.map (·.input)) (s.desiredSteps.map (·.input))), currentAnimation := (none : Option (List AtomAnim)) }
                      rfl rfl rfl
                    rw [heq]
                    exact reconMeasure_rollback_lt s none hrollsp
                  obtain ⟨Nr, s', hrun', hp1, hp2, hp3⟩ := ih
                    { s with animatedSteps := s.animatedSteps.take (sharedPrefixLength (s.animatedSteps.map (·.input)) (s.desiredSteps.map (·.input))), currentAnimation := none, scene := sc' }
                    (t + 1 + ((j + 2 : ℕ) : ℚ) - 1)
                    (by omega)
                    (by
                      have hc2 : (0 : ℚ) ≤ ((j + 2 : ℕ) : ℚ) := Nat.cast_nonneg _
                      linarith)
                    hσ rfl
                    (by
                      intro hfalse
                      exact absurd (hd ▸ hfalse) (by simp))
                  cases Nr with
                  | zero =>
                      exfalso
                      have hs' : s' = { s with animatedSteps := s.animatedSteps.take (sharedPrefixLength (s.animatedSteps.map (·.input)) (s.desiredSteps.map (·.input))), currentAnimation := none, scene := sc' } :=
                        (Except.ok.inj hrun').symm
                      rw [hs'] at hp1
                      exact absurd (hd ▸ hp1) (by simp)
                  | succ Nr' =>
                      have htickmid : tick (t + 1 + ((j + 2 : ℕ) : ℚ) - 1) { s with animatedSteps := s.animatedSteps.take (sharedPrefixLength (s.animatedSteps.map (·.input)) (s.desiredSteps.map (·.input))), currentAnimation := none, scene := sc' } =
                          scheduleNextAnimation { s with animatedSteps := s.animatedSteps.take (sharedPrefixLength (s.animatedSteps.map (·.input)) (s.desiredSteps.map (·.input))), currentAnimation := none, scene := sc' } := by
                        rw [tick, updateAnimations_none _ _ rfl,
                          show ({ s with animatedSteps := s.animatedSteps.take (sharedPrefixLength (s.animatedSteps.map (·.input)) (s.desiredSteps.map (·.input))), currentAnimation := none, scene := sc' } : SysState).checkForAnimation = true from hd]
                        rfl
                      rw [show runTicks (t + 1 + ((j + 2 : ℕ) : ℚ) - 1) (Nr' + 1) { s with animatedSteps := s.animatedSteps.take (sharedPrefixLength (s.animatedSteps.map (·.input)) (s.desiredSteps.map (·.input))), currentAnimation := none, scene := sc' } =
                          tick (t + 1 + ((j + 2 : ℕ) : ℚ) - 1) { s with animatedSteps := s.animatedSteps.take (sharedPrefixLength (s.animatedSteps.map (·.input)) (s.desiredSteps.map (·.input))), currentAnimation := none, scene := sc' } >>= runTicks (t + 1 + ((j + 2 : ℕ) : ℚ) - 1 + 1) Nr' from rfl,
                        htickmid] at hrun'
                      refine ⟨(j + 2) + Nr' + 1, s', ?_, hp1, hp2, hp3⟩
                      show (tick t s >>= runTicks (t + 1) ((j + 2) + Nr')) = .ok s'
                      rw [htick, hrec, exceptOkBind,
                        runTicks_add (j + 2) Nr' (t + 1), hsched]
                      have hteq : t + 1 + ((j + 2 : ℕ) : ℚ) - 1 + 1 = t + 1 + ((j + 2 : ℕ) : ℚ) := by ring
                      rw [hteq] at hrun'
                      exact hrun'
          | nil =>
              cases hanim : s.desiredSteps.drop
                  (sharedPrefixLength (s.animatedSteps.map (·.input))
                    (s.desiredSteps.map (·.input))) with
              | nil =>
                  have hrec := scheduleNextAnimation_clear s hroll hanim
                  refine ⟨1, { s with checkForAnimation := false }, ?_, rfl, hcur, ?_⟩
                  · rw [runTicks_one, htick, hrec]
                  · exact inputs_eq_of_caught_up s hroll hanim
              | cons st rest =>
                  have hrec := scheduleNextAnimation_forward s hcur st rest hroll hanim
                  have hrollsp : s.animatedSteps.drop (spLen s) = [] := hroll
                  have hanimsp : s.desiredSteps.drop (spLen s) = st :: rest := hanim
                  cases hfw : getAnimation st.events with
                  | none =>
                      rw [hfw] at hrec
                      have hm : reconMeasure { s with animatedSteps := s.animatedSteps ++ [st], currentAnimation := (none : Option (List AtomAnim)) } < reconMeasure s :=
                        reconMeasure_forward_lt s none st rest hrollsp hanimsp
                      obtain ⟨N, s', hrun, hp1, hp2, hp3⟩ := ih
                        { s with animatedSteps := s.animatedSteps ++ [st], currentAnimation := (none : Option (List AtomAnim)) }
                        (t + 1) (by omega) (by linarith) hσ rfl
                        (by
                          intro hfalse
                          exact absurd (hd ▸ hfalse) (by simp))
                      refine ⟨N + 1, s', ?_, hp1, hp2, hp3⟩
                      show (tick t s >>= runTicks (t + 1) N) = .ok s'
                      rw [htick, hrec, exceptOkBind]
                      exact hrun
                  | some lfw =>
                      rw [hfw] at hrec
                      obtain ⟨hlne, hlfresh⟩ := getAnimation_fresh _ lfw hfw
                      obtain ⟨j, sc', hsched⟩ := runTicks_scheduled
                        { s with animatedSteps := s.animatedSteps ++ [st], currentAnimation := some lfw }
                        (t + 1) lfw rfl hlne hlfresh (by linarith) hσ
                      rw [if_pos (show _ = true from hd)] at hsched
                      have hm : reconMeasure { s with animatedSteps := s.animatedSteps ++ [st], currentAnimation := none, scene := sc' } < reconMeasure s := by
                        have heq := reconMeasure_eq_of_fields
                          { s with animatedSteps := s.animatedSteps ++ [st], currentAnimation := none, scene := sc' }
                          { s with animatedSteps := s.animatedSteps ++ [st], currentAnimation := (none : Option (List AtomAnim)) }
                          rfl rfl rfl
                        rw [heq]
                        exact reconMeasure_forward_lt s none st rest hrollsp hanimsp
                      obtain ⟨Nr, s', hrun', hp1, hp2, hp3⟩ := ih
                        { s with animatedSteps := s.animatedSteps ++ [st], currentAnimation := none, scene := sc' }
                        (t + 1 + ((j + 2 : ℕ) : ℚ) - 1)
                        (by omega)
                        (by
                          have hc2 : (0 : ℚ) ≤ ((j + 2 : ℕ) : ℚ) := Nat.cast_nonneg _
                          linarith)
                        hσ rfl
                        (by
                          intro hfalse
                          exact absurd (hd ▸ hfalse) (by simp))
                      cases Nr with
                      | zero =>
                          exfalso
                          have hs' : s' = { s with animatedSteps := s.animatedSteps ++ [st], currentAnimation := none, scene := sc' } :=
                            (Except.ok.inj hrun').symm
                          rw [hs'] at hp1
                          exact absurd (hd ▸ hp1) (by simp)
                      | succ Nr' =>
                          have htickmid : tick (t + 1 + ((j + 2 : ℕ) : ℚ) - 1) { s with animatedSteps := s.animatedSteps ++ [st], currentAnimation := none, scene := sc' } =
                              scheduleNextAnimation { s with animatedSteps := s.animatedSteps ++ [st], currentAnimation := none, scene := sc' } := by
                            rw [tick, updateAnimations_none _ _ rfl,
                              show ({ s with animatedSteps := s.animatedSteps ++ [st], currentAnimation := none, scene := sc' } : SysState).checkForAnimation = true from hd]
                            rfl
                          rw [show runTicks (t + 1 + ((j + 2 : ℕ) : ℚ) - 1) (Nr' + 1) { s with animatedSteps := s.animatedSteps ++ [st], currentAnimation := none, scene := sc' } =
                              tick (t + 1 + ((j + 2 : ℕ) : ℚ) - 1) { s with animatedSteps := s.animatedSteps ++ [st], currentAnimation := none, scene := sc' } >>= runTicks (t + 1 + ((j + 2 : ℕ) : ℚ) - 1 + 1) Nr' from rfl,
                            htickmid] at hrun'
                          refine ⟨(j + 2) + Nr' + 1, s', ?_, hp1, hp2, hp3⟩
                          show (tick t s >>= runTicks (t + 1) ((j + 2) + Nr')) = .ok s'
                          rw [htick, hrec, exceptOkBind,
                            runTicks_add (j + 2) Nr' (t + 1), hsched]
                          have hteq : t + 1 + ((j + 2 : ℕ) : ℚ) - 1 + 1 = t + 1 + ((j + 2 : ℕ) : ℚ) := by ring
                          rw [hteq] at hrun'
                          exact hrun'

/-- Unfolding of applyOps on a cons. -/
theorem applyOps_cons (op : UserOp) (ops : List UserOp) (s : SysState) :
    applyOps (op :: ops) s = applyOps ops (applyOp op s) := rfl

/-- advance and undo never touch the scheduler slot or the speed, and
whenever they change the logs they raise the dirty flag. -/
theorem applyOps_invariant (ops : List UserOp) :
    ∀ s : SysState,
    s.currentAnimation = none → s.animationSpeed = 1 →
    (s.checkForAnimation = false → animatedInputs s = desiredInputs s) →
    (applyOps ops s).currentAnimation = none ∧
    (applyOps ops s).animationSpeed = 1 ∧
    ((applyOps ops s).checkForAnimation = false →
      animatedInputs (applyOps ops s) = desiredInputs (applyOps ops s)) := by
  induction ops with
  | nil => intro s h1 h2 h3; exact ⟨h1, h2, h3⟩
  | cons op ops ih =>
      intro s h1 h2 h3
      rw [applyOps_cons]
      cases op with
      | adv c =>
          show _ ∧ _ ∧ _
          cases hnx : next (latestState s) c with
          | error e =>
              have hstep : applyOp (UserOp.adv c) s = s := by
                simp [applyOp, advance, hnx]
              rw [hstep]
              exact ih s h1 h2 h3
          | ok r =>
              refine ih _ ?_ ?_ ?_
              · simpa [applyOp, advance, hnx] using h1
              · simpa [applyOp, advance, hnx] using h2
              · intro hfalse
                have : (applyOp (UserOp.adv c) s).checkForAnimation = true := by
                  simp [applyOp, advance, hnx]
                rw [this] at hfalse
                exact absurd hfalse (by simp)
      | und =>
          refine ih _ ?_ ?_ ?_
          · simpa [applyOp, undo] using h1
          · simpa [applyOp, undo] using h2
          · intro hfalse
            have : (applyOp UserOp.und s).checkForAnimation = true := by
              simp [applyOp, undo]
            rw [this] at hfalse
            exact absurd hfalse (by simp)

/-- C1: convergence.  After any finite sequence of advance/undo calls
from the initial state, repeatedly running the per-frame tick reaches,
after finitely many frames, a state with the dirty flag cleared, the
scheduler idle, and the animated log equal to the desired log by input
sequence — whether or not individual steps derive real animations. -/
theorem convergence_after_ops (g : GameState) (ops : List UserOp) (t : ℚ) (ht : 0 < t) :
    ∃ (N : ℕ) (s' : SysState),
      runTicks t N (applyOps ops (initState g)) = .ok s' ∧
      s'.checkForAnimation = false ∧ s'.currentAnimation = none ∧
      s'.animatedSteps.map (·.input) = s'.desiredSteps.map (·.input) := by
  obtain ⟨h1, h2, h3⟩ := applyOps_invariant ops (initState g) rfl rfl (fun _ => rfl)
  exact convergesFrom (reconMeasure (applyOps ops (initState g)))
    (applyOps ops (initState g)) t le_rfl ht (le_of_eq h2.symm) h1 h3

/-- Witness for C1 at a concrete game, operation list and start time. -/
theorem convergence_after_ops_witness :
    (0 : ℚ) < 1 ∧
    ∃ (N : ℕ) (s' : SysState),
      runTicks 1 N (applyOps [UserOp.adv 4, UserOp.und] (initState gTest)) = .ok s' ∧
      s'.checkForAnimation = false ∧ s'.currentAnimation = none ∧
      s'.animatedSteps.map (·.input) = s'.desiredSteps.map (·.input) :=
  ⟨by norm_num,
   convergence_after_ops gTest [UserOp.adv 4, UserOp.und] 1 (by norm_num)⟩

/-- C2: the reconciliation algorithm.  sharedPrefixLength is the
longest common prefix of the two input sequences (the scan stops at the
first difference or the end of either log); with an idle scheduler,
reconciliation truncates a non-empty stale suffix and installs the
single merged reverse animation (when one derives), else appends
exactly the first pending desired step and installs its forward
animation (when one derives), else clears the dirty flag; at most one
animation is installed and rollback takes priority. -/
theorem reconciliation_cases (s : SysState) (hcur : s.currentAnimation = none) :
    ((s.animatedSteps.map (·.input)).take
        (sharedPrefixLength (s.animatedSteps.map (·.input)) (s.desiredSteps.map (·.input))) =
      (s.desiredSteps.map (·.input)).take
        (sharedPrefixLength (s.animatedSteps.map (·.input)) (s.desiredSteps.map (·.input)))) ∧
    (sharedPrefixLength (s.animatedSteps.map (·.input)) (s.desiredSteps.map (·.input)) ≤
      s.animatedSteps.length) ∧
    (sharedPrefixLength (s.animatedSteps.map (·.input)) (s.desiredSteps.map (·.input)) ≤
      s.desiredSteps.length) ∧
    (∀ j : ℕ, (s.animatedSteps.map (·.input)).take j = (s.desiredSteps.map (·.input)).take j →
      j ≤ s.animatedSteps.length →
      j ≤ sharedPrefixLength (s.animatedSteps.map (·.input)) (s.desiredSteps.map (·.input))) ∧
    (s.animatedSteps.drop
        (sharedPrefixLength (s.animatedSteps.map (·.input)) (s.desiredSteps.map (·.input))) ≠ [] →
      scheduleNextAnimation s = .ok
        { s with
          animatedSteps := s.animatedSteps.take
            (sharedPrefixLength (s.animatedSteps.map (·.input)) (s.desiredSteps.map (·.input))),
          currentAnimation := getReverseAnimation
            ((s.animatedSteps.drop
              (sharedPrefixLength (s.animatedSteps.map (·.input))
                (s.desiredSteps.map (·.input)))).flatMap (·.events)) }) ∧
    (∀ (nextStep : AnimationStep) (rest : List AnimationStep),
      s.animatedSteps.drop
        (sharedPrefixLength (s.animatedSteps.map (·.input)) (s.desiredSteps.map (·.input))) = [] →
      s.desiredSteps.drop
        (sharedPrefixLength (s.animatedSteps.map (·.input)) (s.desiredSteps.map (·.input))) =
        nextStep :: rest →
      scheduleNextAnimation s = .ok
        { s with animatedSteps := s.animatedSteps ++ [nextStep],
                 currentAnimation := getAnimation nextStep.events }) ∧
    (s.animatedSteps.drop
        (sharedPrefixLength (s.animatedSteps.map (·.input)) (s.desiredSteps.map (·.input))) = [] →
      s.desiredSteps.drop
        (sharedPrefixLength (s.animatedSteps.map (·.input)) (s.desiredSteps.map (·.input))) = [] →
      scheduleNextAnimation s = .ok { s with checkForAnimation := false }) := by
  refine ⟨take_sharedPrefixLength_eq _ _, ?_, ?_, ?_, ?_, ?_, ?_⟩
  · simpa [List.length_map] using
      sharedPrefixLength_le_left (s.animatedSteps.map (·.input)) (s.desiredSteps.map (·.input))
  · simpa [List.length_map] using
      sharedPrefixLength_le_right (s.animatedSteps.map (·.input)) (s.desiredSteps.map (·.input))
  · intro j htake hj
    exact le_sharedPrefixLength_of_take_eq _ _ j htake (by simpa [List.length_map] using hj)
  · intro hroll
    exact scheduleNextAnimation_rollback s hcur hroll
  · intro nextStep rest hroll hanim
    exact scheduleNextAnimation_forward s hcur nextStep rest hroll hanim
  · intro hroll hanim
    exact scheduleNextAnimation_clear s hroll hanim

/-- Witness for C2 at a concrete diverged state. -/
theorem reconciliation_cases_witness :
    sRolled.currentAnimation = none ∧
    (sRolled.animatedSteps.drop
        (sharedPrefixLength (sRolled.animatedSteps.map (·.input))
          (sRolled.desiredSteps.map (·.input))) ≠ [] →
      scheduleNextAnimation sRolled = .ok
        { sRolled with
          animatedSteps := sRolled.animatedSteps.take
            (sharedPrefixLength (sRolled.animatedSteps.map (·.input))
              (sRolled.desiredSteps.map (·.input))),
          currentAnimation := getReverseAnimation
            ((sRolled.animatedSteps.drop
              (sharedPrefixLength (sRolled.animatedSteps.map (·.input))
                (sRolled.desiredSteps.map (·.input)))).flatMap (·.events)) }) :=
  ⟨rfl, (reconciliation_cases sRolled rfl).2.2.2.2.1⟩

/-- C3: at every frame boundary the scheduler holds zero or one
animation, and a frame never reaches the throw inside
scheduleAnimation: reconciliation only runs once the animation pass
reported idle, so the precondition always holds on reachable states. -/
theorem at_most_one_animation (s : SysState) (_hs : Reachable s) (ts : ℚ) :
    (if s.currentAnimation.isSome then 1 else 0) ≤ 1 ∧
    ∃ s', tick ts s = .ok s' ∧ (if s'.currentAnimation.isSome then 1 else 0) ≤ 1 := by
  refine ⟨by split <;> omega, ?_⟩
  obtain ⟨s', h⟩ := tick_ok ts s
  exact ⟨s', h, by split <;> omega⟩

/-- Witness for C3 at the initial state of the concrete game. -/
theorem at_most_one_animation_witness :
    (if (initState gTest).currentAnimation.isSome then 1 else 0) ≤ 1 ∧
    ∃ s', tick 1 (initState gTest) = .ok s' ∧
      (if s'.currentAnimation.isSome then 1 else 0) ≤ 1 :=
  at_most_one_animation (initState gTest) (Reachable.init gTest) 1

/-- A log extended by extra entries shares exactly the original log. -/
theorem sharedPrefixLength_append_left :
    ∀ a c : List CellIndex, sharedPrefixLength (a ++ c) a = a.length := by
  intro a
  induction a with
  | nil => intro c; simp [sharedPrefixLength_nil_right]
  | cons x xs ih =>
      intro c
      simp only [List.cons_append, sharedPrefixLength_cons_cons, if_pos rfl, ih c,
        List.length_cons]
      simp

/-- C4 counterexample: starting converged, advancing twice and undoing
twice before any frame leaves the logs already equal, so the next
reconciliation schedules zero animations, not one. -/
theorem collapse_counterexample :
    sPushPop.animatedSteps = [] ∧ sPushPop.desiredSteps = [] ∧
    sPushPop.currentAnimation = none ∧ sPushPop.checkForAnimation = true ∧
    Except.map (fun s' => (s'.currentAnimation.isSome, s'.checkForAnimation))
      (tick 1 sPushPop) = .ok (false, false) :=
  ⟨rfl, rfl, rfl, rfl, rfl⟩

/-- C4 amended: when the undone steps had actually been animated (the
animated log extends the desired log by the rolled-back suffix), the
next frame's reconciliation truncates the animated log and schedules
exactly one reverse animation derived from the flattened events of all
rolled-back steps, provided at least one of them selected a cell. -/
theorem collapse_amended (s : SysState) (pre extra : List AnimationStep) (ts : ℚ)
    (hcur : s.currentAnimation = none)
    (hA : s.animatedSteps = pre ++ extra) (hD : s.desiredSteps = pre)
    (hextra : extra ≠ [])
    (hsel : ∃ e ∈ extra.flatMap (·.events), ∃ i : CellIndex, e = GameEvent.pathSelection i)
    (hd : s.checkForAnimation = true) :
    ∃ l : List AtomAnim,
      tick ts s = .ok { s with animatedSteps := pre, currentAnimation := some l } ∧
      getReverseAnimation (extra.flatMap (·.events)) = some l := by
  have hk : sharedPrefixLength (s.animatedSteps.map (·.input))
      (s.desiredSteps.map (·.input)) = pre.length := by
    rw [hA, hD, List.map_append]
    rw [sharedPrefixLength_append_left]
    exact List.length_map pre _
  have hdropA : s.animatedSteps.drop
      (sharedPrefixLength (s.animatedSteps.map (·.input))
        (s.desiredSteps.map (·.input))) = extra := by
    rw [hk, hA]
    exact List.drop_left pre extra
  have htakeA : s.animatedSteps.take
      (sharedPrefixLength (s.animatedSteps.map (·.input))
        (s.desiredSteps.map (·.input))) = pre := by
    rw [hk, hA]
    exact List.take_left pre extra
  have hrollne : s.animatedSteps.drop
      (sharedPrefixLength (s.animatedSteps.map (·.input))
        (s.desiredSteps.map (·.input))) ≠ [] := by
    rw [hdropA]; exact hextra
  have hrec := scheduleNextAnimation_rollback s hcur hrollne
  rw [hdropA, htakeA] at hrec
  obtain ⟨e, hmem, i, hei⟩ := hsel
  have hsome : ∃ l, getReverseAnimation (extra.flatMap (·.events)) = some l := by
    simp only [getReverseAnimation]
    have hmem' : mkAtom (AnimKind.highlight i true) ∈
        (extra.flatMap (·.events)).filterMap (fun event =>
          match event with
          | GameEvent.pathSelection selectedIndex =>
              some (mkAtom (AnimKind.highlight selectedIndex true))
          | GameEvent.energyLoss _ => none) := by
      apply List.mem_filterMap.mpr
      exact ⟨e, hmem, by rw [hei]⟩
    have hlen : ((extra.flatMap (·.events)).filterMap (fun event =>
        match event with
        | GameEvent.pathSelection selectedIndex =>
            some (mkAtom (AnimKind.highlight selectedIndex true))
        | GameEvent.energyLoss _ => none)).length ≠ 0 := by
      intro h0
      rw [List.length_eq_zero.mp h0] at hmem'
      exact absurd hmem' (List.not_mem_nil _)
    have hguard : (((extra.flatMap (·.events)).filterMap (fun event =>
        match event with
        | GameEvent.pathSelection selectedIndex =>
            some (mkAtom (AnimKind.highlight selectedIndex true))
        | GameEvent.energyLoss _ => none)) ++
        (if ((extra.flatMap (·.events)).map (fun event =>
          match event with
          | GameEvent.energyLoss amount => amount
          | GameEvent.pathSelection _ => 0)).sum ≠ 0 then
            [mkAtom (AnimKind.energyChange ((extra.flatMap (·.events)).map (fun event =>
              match event with
              | GameEvent.energyLoss amount => amount
              | GameEvent.pathSelection _ => 0)).sum)]
          else [])).length ≠ 0 := by
      rw [List.length_append]
      intro h0
      exact hlen (by omega)
    rw [if_pos hguard]
    exact ⟨_, rfl⟩
  obtain ⟨l, hl⟩ := hsome
  rw [hl] at hrec
  refine ⟨l, ?_, hl⟩
  have htick : tick ts s = scheduleNextAnimation s := by
    rw [tick, updateAnimations_none ts s hcur, hd]
    rfl
  rw [htick, hrec]

/-- Witness for C4 amended at a concrete one-step rollback. -/
theorem collapse_amended_witness :
    ∃ l : List AtomAnim,
      tick 1 sRolled = .ok { sRolled with animatedSteps := [], currentAnimation := some l } ∧
      getReverseAnimation ([step4].flatMap (·.events)) = some l :=
  collapse_amended sRolled [] [step4] 1 rfl rfl rfl (by decide)
    ⟨GameEvent.pathSelection 4, by decide, 4, rfl⟩ rfl

/-- C5: evaluation of commit at the failing input.  After advance(4)
then commit(), the committed state is the end-of-turn fold of the top
preview state and the preview stack is empty, but desiredSteps is still
the one recorded step (and the dirty flag whatever it was): commit
never clears the step logs, contradicting the claim. -/
theorem commit_leaves_logs :
    sCommit.previewStack = [] ∧
    sCommit.committedState.path = [] ∧
    sCommit.committedState.energy = 6 ∧
    sCommit.desiredSteps = [step4] ∧
    sCommit.desiredSteps ≠ [] ∧
    sCommit.checkForAnimation = true :=
  ⟨rfl, rfl, rfl, by decide, by decide, rfl⟩

/-- C6: evaluation of the log-synchronization invariant at the failing
input.  advance(4) keeps the two stacks at equal length, but commit()
empties the preview stack while leaving desiredSteps untouched. -/
theorem log_sync_violated_by_commit :
    sAdv4.previewStack.length = 1 ∧
    sAdv4.desiredSteps.length = 1 ∧
    sCommit.previewStack.length = 0 ∧
    sCommit.desiredSteps.length = 1 :=
  ⟨rfl, rfl, rfl, rfl⟩

/-- game.ts next rejects exactly when the cell is already on the path,
or the path is nonempty and the cell is not adjacent to its last entry. -/
theorem next_error_iff (g : GameState) (c : CellIndex) :
    (∃ msg, next g c = .error msg) ↔
      (g.path.contains c = true ∨
        ∃ lastC, g.path.getLast? = some lastC ∧ isAdjacent lastC c = false) := by
  unfold next
  cases hmem : g.path.contains c with
  | true =>
      rw [if_pos rfl]
      constructor
      · intro _
        exact Or.inl rfl
      · intro _
        exact ⟨_, rfl⟩
  | false =>
      rw [if_neg Bool.false_ne_true]
      cases hlast : g.path.getLast? with
      | none =>
          constructor
          · rintro ⟨msg, hmsg⟩
            exact Except.noConfusion hmsg
          · rintro (hc | ⟨lastC, hl, _⟩)
            · exact Bool.noConfusion hc
            · exact Option.noConfusion hl
      | some lastC =>
          dsimp only
          cases hadj : isAdjacent lastC c with
          | true =>
              rw [if_pos rfl]
              constructor
              · rintro ⟨msg, hmsg⟩
                exact Except.noConfusion hmsg
              · rintro (hc | ⟨lastC', hl', hadj'⟩)
                · exact Bool.noConfusion hc
                · rw [← Option.some.inj hl'] at hadj'
                  rw [hadj] at hadj'
                  exact Bool.noConfusion hadj'
          | false =>
              rw [if_neg Bool.false_ne_true]
              constructor
              · intro _
                exact Or.inr ⟨lastC, rfl, hadj⟩
              · intro _
                exact ⟨"Invalid move, selection must be adjacent to last step.", rfl⟩

/-- C7: advance signals failure exactly when next rejects the input
(cell already on the path, or non-adjacent to the last entry of a
nonempty path), and in that case the whole state — stacks, logs, dirty
flag, scene, scheduler — is returned unchanged, with no exception. -/
theorem advance_invalid_atomic (s : SysState) (c : CellIndex) :
    ((advance s c).1 = true ↔ ∃ msg, next (latestState s) c = .error msg) ∧
    ((advance s c).1 = true ↔
      ((latestState s).path.contains c = true ∨
        ∃ lastC, (latestState s).path.getLast? = some lastC ∧
          isAdjacent lastC c = false)) ∧
    ((advance s c).1 = true → (advance s c).2 = s) := by
  have herr : (advance s c).1 = true ↔ ∃ msg, next (latestState s) c = .error msg := by
    unfold advance
    cases hnx : next (latestState s) c with
    | error e =>
        constructor
        · intro _
          exact ⟨e, rfl⟩
        · intro _
          rfl
    | ok r =>
        constructor
        · intro hfalse
          exact Bool.noConfusion hfalse
        · rintro ⟨msg, hmsg⟩
          exact Except.noConfusion hmsg
  refine ⟨herr, herr.trans (next_error_iff (latestState s) c), ?_⟩
  intro htrue
  obtain ⟨msg, hmsg⟩ := herr.mp htrue
  unfold advance
  rw [hmsg]

/-- Witness for C7: reselecting the cell already on the path is
rejected and leaves the state untouched. -/
theorem advance_invalid_atomic_witness :
    (advance sAdv4 4).1 = true ∧ (advance sAdv4 4).2 = sAdv4 := by
  have h := advance_invalid_atomic sAdv4 4
  have h1 : (advance sAdv4 4).1 = true :=
    h.2.1.mpr (Or.inl (by decide))
  exact ⟨h1, h.2.2 h1⟩

/-- isSome of the nonempty-guard pattern. -/
theorem ite_some_isSome {L : List AtomAnim} :
    (if L.length ≠ 0 then some L else none).isSome = true ↔ L ≠ [] := by
  by_cases h : L.length = 0
  · rw [if_neg (by simpa using h)]
    simp [List.length_eq_zero.mp h]
  · rw [if_pos h]
    simp only [Option.isSome_some, true_iff]
    intro h0
    exact h (by rw [h0]; rfl)

/-- Sum of the energy-loss amounts is nonnegative when every amount is
positive. -/
theorem energySum_nonneg (evs : List GameEvent)
    (hp : ∀ amt : Int, GameEvent.energyLoss amt ∈ evs → 0 < amt) :
    0 ≤ (evs.map (fun event =>
      match event with
      | GameEvent.energyLoss amount => amount
      | GameEvent.pathSelection _ => 0)).sum := by
  induction evs with
  | nil => simp
  | cons e es ih =>
      rw [List.map_cons, List.sum_cons]
      have h2 := ih (fun amt hm => hp amt (List.mem_cons_of_mem e hm))
      cases e with
      | energyLoss amt =>
          have h1 := hp amt (List.mem_cons_self _ _)
          dsimp only
          omega
      | pathSelection i =>
          dsimp only
          omega

/-- Sum of the energy-loss amounts is positive when one exists and all
are positive. -/
theorem energySum_pos (evs : List GameEvent)
    (hp : ∀ amt : Int, GameEvent.energyLoss amt ∈ evs → 0 < amt)
    (hx : ∃ amt : Int, GameEvent.energyLoss amt ∈ evs) :
    0 < (evs.map (fun event =>
      match event with
      | GameEvent.energyLoss amount => amount
      | GameEvent.pathSelection _ => 0)).sum := by
  obtain ⟨amt0, hmem0⟩ := hx
  induction evs with
  | nil => exact absurd hmem0 (List.not_mem_nil _)
  | cons e es ih =>
      rw [List.map_cons, List.sum_cons]
      have hes := fun amt hm => hp amt (List.mem_cons_of_mem e hm)
      cases e with
      | energyLoss amt =>
          have h1 := hp amt (List.mem_cons_self _ _)
          have h2 := energySum_nonneg es hes
          dsimp only
          omega
      | pathSelection i =>
          dsimp only
          rcases List.mem_cons.mp hmem0 with heq | hmem1
          · exact GameEvent.noConfusion heq
          · have := ih hes hmem1
            omega

/-- C8: event-to-animation derivation.  Forward: one highlight-in per
PathSelection (for its cell) and one negated-amount popup per
EnergyLoss, in event order, and no animation exactly when there are no
events.  Reverse, on a merged event list: one highlight-out per
PathSelection plus at most one popup whose amount is the sum of all
EnergyLoss amounts (positive when the amounts are), present exactly
when the sum is nonzero; no animation when nothing qualifies. -/
theorem event_derivation (events : List GameEvent)
    (hpos : ∀ amt : Int, GameEvent.energyLoss amt ∈ events → 0 < amt) :
    ((getAnimation events).isSome = true ↔ events ≠ []) ∧
    (∀ l, getAnimation events = some l →
      l.map (·.kind) = events.map (fun e =>
        match e with
        | GameEvent.pathSelection i => AnimKind.highlight i false
        | GameEvent.energyLoss amt => AnimKind.energyChange (-amt))) ∧
    ((getReverseAnimation events).isSome = true ↔
      ((∃ i : CellIndex, GameEvent.pathSelection i ∈ events) ∨
        (events.map (fun event =>
          match event with
          | GameEvent.energyLoss amount => amount
          | GameEvent.pathSelection _ => 0)).sum ≠ 0)) ∧
    (∀ l, getReverseAnimation events = some l →
      l.map (·.kind) =
        (events.filterMap (fun e =>
          match e with
          | GameEvent.pathSelection i => some (AnimKind.highlight i true)
          | GameEvent.energyLoss _ => none)) ++
        (if (events.map (fun event =>
            match event with
            | GameEvent.energyLoss amount => amount
            | GameEvent.pathSelection _ => 0)).sum ≠ 0 then
          [AnimKind.energyChange ((events.map (fun event =>
            match event with
            | GameEvent.energyLoss amount => amount
            | GameEvent.pathSelection _ => 0)).sum)]
        else [])) ∧
    (∀ l, getReverseAnimation events = some l →
      l.countP (fun a => match a.kind with
        | AnimKind.energyChange _ => true
        | AnimKind.highlight _ _ => false) ≤ 1) ∧
    ((∃ amt : Int, GameEvent.energyLoss amt ∈ events) →
      0 < (events.map (fun event =>
        match event with
        | GameEvent.energyLoss amount => amount
        | GameEvent.pathSelection _ => 0)).sum) := by
  refine ⟨?_, ?_, ?_, ?_, ?_, energySum_pos events hpos⟩
  · simp only [getAnimation]
    rw [ite_some_isSome]
    constructor
    · intro hne h0
      exact hne (by rw [h0]; rfl)
    · intro hne h0
      exact hne (List.map_eq_nil_iff.mp h0)
  · intro l hl
    simp only [getAnimation] at hl
    obtain ⟨rfl, _⟩ := ite_some_guard hl
    rw [List.map_map]
    congr 1
    funext e
    cases e <;> rfl
  · simp only [getReverseAnimation]
    rw [ite_some_isSome]
    constructor
    · intro hne
      by_cases hsum : (events.map (fun event =>
          match event with
          | GameEvent.energyLoss amount => amount
          | GameEvent.pathSelection _ => 0)).sum ≠ 0
      · exact Or.inr hsum
      · left
        rw [if_neg hsum, List.append_nil] at hne
        obtain ⟨a, ha⟩ := List.exists_mem_of_ne_nil _ hne
        obtain ⟨e, hemem, hge⟩ := List.mem_filterMap.mp ha
        cases e with
        | pathSelection i => exact ⟨i, hemem⟩
        | energyLoss amt => exact Option.noConfusion hge
    · rintro (⟨i, hi⟩ | hsum) <;> intro h0
      · have hmemH : mkAtom (AnimKind.highlight i true) ∈
            events.filterMap (fun event =>
              match event with
              | GameEvent.pathSelection selectedIndex =>
                  some (mkAtom (AnimKind.highlight selectedIndex true))
              | GameEvent.energyLoss _ => none) :=
          List.mem_filterMap.mpr ⟨_, hi, rfl⟩
        rw [(List.append_eq_nil.mp h0).1] at hmemH
        exact absurd hmemH (List.not_mem_nil _)
      · have h2 := (List.append_eq_nil.mp h0).2
        rw [if_pos hsum] at h2
        exact List.noConfusion h2
  · intro l hl
    simp only [getReverseAnimation] at hl
    obtain ⟨rfl, _⟩ := ite_some_guard hl
    rw [List.map_append, List.map_filterMap]
    congr 1
    · congr 1
      funext e
      cases e <;> rfl
    · by_cases hsum : (events.map (fun event =>
          match event with
          | GameEvent.energyLoss amount => amount
          | GameEvent.pathSelection _ => 0)).sum ≠ 0
      · rw [if_pos hsum, if_pos hsum]
        rfl
      · rw [if_neg hsum, if_neg hsum]
        rfl
  · intro l hl
    simp only [getReverseAnimation] at hl
    obtain ⟨rfl, _⟩ := ite_some_guard hl
    rw [List.countP_append]
    have hH : (events.filterMap (fun event =>
        match event with
        | GameEvent.pathSelection selectedIndex =>
            some (mkAtom (AnimKind.highlight selectedIndex true))
        | GameEvent.energyLoss _ => none)).countP (fun a =>
          match a.kind with
          | AnimKind.energyChange _ => true
          | AnimKind.highlight _ _ => false) = 0 := by
      rw [List.countP_eq_zero]
      intro a ha
      obtain ⟨e, _, hge⟩ := List.mem_filterMap.mp ha
      cases e with
      | pathSelection i =>
          rw [← Option.some.inj hge]
          exact Bool.false_ne_true
      | energyLoss amt => exact Option.noConfusion hge
    rw [hH]
    by_cases hsum : (events.map (fun event =>
        match event with
        | GameEvent.energyLoss amount => amount
        | GameEvent.pathSelection _ => 0)).sum ≠ 0
    · rw [if_pos hsum]
      rw [List.countP_cons]
      split <;> simp
    · rw [if_neg hsum]
      simp

/-- Witness for C8 on the events of one concrete step. -/
theorem event_derivation_witness :
    (getAnimation [GameEvent.pathSelection 4, GameEvent.energyLoss 1]).isSome = true ∧
    (getReverseAnimation [GameEvent.pathSelection 4, GameEvent.energyLoss 1]).isSome = true := by
  have h := event_derivation [GameEvent.pathSelection 4, GameEvent.energyLoss 1]
    (by intro amt hm; simp at hm; omega)
  refine ⟨h.1.mpr (by simp), h.2.2.1.mpr (Or.inl ⟨4, by simp⟩)⟩

/-- Closed form of a single animation closure driven at speed 1 with
strictly increasing positive timestamps: after invocation n the
baseline is f n and the accumulated elapsed time is f n - f 0. -/
theorem atomRun_state (turboMode : Bool) (f : ℕ → ℚ) (hmono : StrictMono f)
    (h0 : 0 < f 0) (sc : Scene) (kind : AnimKind) :
    ∀ n, (atomRun 1 turboMode f sc (mkAtom kind) n).1 =
      atomAt (f n) (f n - f 0) (mkAtom kind) := by
  intro n
  induction n with
  | zero =>
      show (atomStep 1 turboMode (f 0) (mkAtom kind) sc).1 = _
      rw [atomStep_fresh]
      show atomAt (f 0) 0 (mkAtom kind) = atomAt (f 0) (f 0 - f 0) (mkAtom kind)
      rw [sub_self]
  | succ n ih =>
      have hfn : 0 < f n := lt_of_lt_of_le h0 (hmono.monotone (Nat.zero_le n))
      simp only [atomRun]
      rw [ih]
      rw [atomStep_running_fst 1 turboMode (f (n + 1)) (f n)
        (atomAt (f n) (f n - f 0) (mkAtom kind)) _ rfl (by intro hz; rw [hz] at hfn; exact lt_irrefl 0 hfn)]
      show atomAt (f (n + 1)) (f n - f 0 + (f (n + 1) - f n) * 1) (mkAtom kind) =
        atomAt (f (n + 1)) (f (n + 1) - f 0) (mkAtom kind)
      rw [show f n - f 0 + (f (n + 1) - f n) * 1 = f (n + 1) - f 0 by ring]

/-- The finished flag of invocation n+1 follows the kind's duration
threshold at elapsed time f (n+1) - f 0. -/
theorem atomRun_done (turboMode : Bool) (f : ℕ → ℚ) (hmono : StrictMono f)
    (h0 : 0 < f 0) (sc : Scene) (kind : AnimKind) (n : ℕ) :
    (atomRun 1 turboMode f sc (mkAtom kind) (n + 1)).2.2 =
      kindDoneB turboMode kind (f (n + 1) - f 0) := by
  have hfn : 0 < f n := lt_of_lt_of_le h0 (hmono.monotone (Nat.zero_le n))
  have hlt : f n < f (n + 1) := hmono (Nat.lt_succ_self n)
  simp only [atomRun]
  rw [atomRun_state turboMode f hmono h0 sc kind n]
  rw [atomStep_running_done 1 turboMode (f (n + 1)) (f n)
    (atomAt (f n) (f n - f 0) (mkAtom kind)) _ rfl
    (by intro hz; rw [hz] at hfn; exact lt_irrefl 0 hfn)
    (by
      show ¬ f n - f 0 + (f (n + 1) - f n) * 1 = 0
      intro hz
      have h0n : f 0 ≤ f n := hmono.monotone (Nat.zero_le n)
      nlinarith)]
  show kindDoneB turboMode kind (f n - f 0 + (f (n + 1) - f n) * 1) = _
  rw [show f n - f 0 + (f (n + 1) - f n) * 1 = f (n + 1) - f 0 by ring]

/-- C9 counterexample: a highlight animation invoked at timestamps 1,
601, 1201 returns false, then true, then true again — the closure keeps
reporting finished when re-invoked, so "true exactly once" fails. -/
theorem animation_true_again_counterexample :
    (atomRun 1 false tsWide (initScene gTest) (mkAtom (AnimKind.highlight 0 false)) 0).2.2
      = false ∧
    (atomRun 1 false tsWide (initScene gTest) (mkAtom (AnimKind.highlight 0 false)) 1).2.2
      = true ∧
    (atomRun 1 false tsWide (initScene gTest) (mkAtom (AnimKind.highlight 0 false)) 2).2.2
      = true := by
  have hmono : StrictMono tsWide := by
    intro a b hab
    show (1 : ℚ) + 600 * a < 1 + 600 * b
    have hab' : (a : ℚ) < b := by exact_mod_cast hab
    linarith
  have h0 : (0 : ℚ) < tsWide 0 := by norm_num [tsWide]
  refine ⟨?_, ?_, ?_⟩
  · show (atomStep 1 false (tsWide 0) (mkAtom (AnimKind.highlight 0 false))
      (initScene gTest)).2.2 = false
    rw [atomStep_fresh]
  · show (atomRun 1 false tsWide (initScene gTest)
      (mkAtom (AnimKind.highlight 0 false)) (0 + 1)).2.2 = true
    rw [atomRun_done false tsWide hmono h0 (initScene gTest) (AnimKind.highlight 0 false) 0]
    norm_num [kindDoneB, tsWide]
  · show (atomRun 1 false tsWide (initScene gTest)
      (mkAtom (AnimKind.highlight 0 false)) (1 + 1)).2.2 = true
    rw [atomRun_done false tsWide hmono h0 (initScene gTest) (AnimKind.highlight 0 false) 1]
    norm_num [kindDoneB, tsWide]

/-- C9 amended: at normal speed with strictly increasing positive
timestamps, an animationUpdater animation returns false on every
invocation before its accumulated elapsed time reaches the duration
threshold (in particular on its first invocation), and returns true on
the invocation where the threshold is first reached and on every
re-invocation afterwards (each such invocation also re-runs teardown). -/
theorem animation_done_from_threshold (f : ℕ → ℚ) (hmono : StrictMono f) (h0 : 0 < f 0)
    (sc : Scene) (c : CellIndex) (rev : Bool) (amt : Int) (n : ℕ) :
    ((atomRun 1 false f sc (mkAtom (AnimKind.highlight c rev)) n).2.2 = true ↔
      (0 < n ∧ 500 ≤ f n - f 0)) ∧
    ((atomRun 1 false f sc (mkAtom (AnimKind.energyChange amt)) n).2.2 = true ↔
      (0 < n ∧ 1600 ≤ f n - f 0)) := by
  cases n with
  | zero =>
      constructor
      · constructor
        · intro hfalse
          rw [show (atomRun 1 false f sc (mkAtom (AnimKind.highlight c rev)) 0).2.2 = false
            from by rw [show atomRun 1 false f sc (mkAtom (AnimKind.highlight c rev)) 0 =
              atomStep 1 false (f 0) (mkAtom (AnimKind.highlight c rev)) sc from rfl,
              atomStep_fresh]] at hfalse
          exact Bool.noConfusion hfalse
        · rintro ⟨h, _⟩
          exact absurd h (lt_irrefl 0)
      · constructor
        · intro hfalse
          rw [show (atomRun 1 false f sc (mkAtom (AnimKind.energyChange amt)) 0).2.2 = false
            from by rw [show atomRun 1 false f sc (mkAtom (AnimKind.energyChange amt)) 0 =
              atomStep 1 false (f 0) (mkAtom (AnimKind.energyChange amt)) sc from rfl,
              atomStep_fresh]] at hfalse
          exact Bool.noConfusion hfalse
        · rintro ⟨h, _⟩
          exact absurd h (lt_irrefl 0)
  | succ n =>
      constructor
      · rw [atomRun_done false f hmono h0 sc (AnimKind.highlight c rev) n]
        simp [kindDoneB, Nat.succ_pos]
      · rw [atomRun_done false f hmono h0 sc (AnimKind.energyChange amt) n]
        simp [kindDoneB, Nat.succ_pos]

/-- Witness for C9 amended at the concrete wide timestamp sequence. -/
theorem animation_done_from_threshold_witness :
    ((atomRun 1 false tsWide (initScene gTest) (mkAtom (AnimKind.highlight 3 true)) 1).2.2
        = true ↔ (0 < 1 ∧ (500 : ℚ) ≤ tsWide 1 - tsWide 0)) ∧
    ((atomRun 1 false tsWide (initScene gTest) (mkAtom (AnimKind.energyChange 2)) 1).2.2
        = true ↔ (0 < 1 ∧ (1600 : ℚ) ≤ tsWide 1 - tsWide 0)) :=
  animation_done_from_threshold tsWide
    (by
      intro a b hab
      show (1 : ℚ) + 600 * a < 1 + 600 * b
      have : (a : ℚ) < b := by exact_mod_cast hab
      linarith)
    (by norm_num [tsWide]) (initScene gTest) 3 true 2 1

/-- C10: the first invocation of any animationUpdater closure only sets
the baseline, runs init and returns false (its elapsed time is 0 on
that tick, checked before the turbo short-circuit), so a freshly
scheduled parallel animation reports unfinished on its first frame and
the scheduler stays busy: every scheduled animation spans at least two
frames. -/
theorem first_invocation_baseline (animationSpeed : ℚ) (turboMode : Bool)
    (timestamp : ℚ) (sc : Scene) (kind : AnimKind) (s : SysState) (l : List AtomAnim)
    (hcur : s.currentAnimation = some l) (hne : l ≠ [])
    (hfresh : ∀ a ∈ l, a = mkAtom a.kind) :
    atomStep animationSpeed turboMode timestamp (mkAtom kind) sc =
      (atomAt timestamp 0 (mkAtom kind), atomInit kind sc, false) ∧
    (parStep animationSpeed turboMode timestamp l sc).2.2 = false ∧
    (updateAnimations timestamp s).2 = false ∧
    (updateAnimations timestamp s).1.currentAnimation.isSome = true := by
  have hempty : l.isEmpty = false := by
    cases l with
    | nil => exact absurd rfl hne
    | cons a rest => rfl
  refine ⟨atomStep_fresh _ _ _ _ _, ?_, ?_, ?_⟩
  · rw [(parStep_fresh animationSpeed turboMode timestamp l sc hfresh).2, hempty]
  · have hpar := parStep_fresh s.animationSpeed s.turboMode timestamp l s.scene hfresh
    simp [updateAnimations, hcur, hpar.2, hempty]
  · have hpar := parStep_fresh s.animationSpeed s.turboMode timestamp l s.scene hfresh
    simp [updateAnimations, hcur, hpar.2, hempty]

/-- Witness for C10 on a turbo-mode energy popup. -/
theorem first_invocation_baseline_witness :
    atomStep 4 true 7 (mkAtom (AnimKind.energyChange 5)) (initScene gTest) =
      (atomAt 7 0 (mkAtom (AnimKind.energyChange 5)),
        atomInit (AnimKind.energyChange 5) (initScene gTest), false) ∧
    (parStep 4 true 7 [mkAtom (AnimKind.energyChange 5)] (initScene gTest)).2.2 = false ∧
    (updateAnimations 7 sTurboBusy).2 = false ∧
    (updateAnimations 7 sTurboBusy).1.currentAnimation.isSome = true := by
  have h := first_invocation_baseline 4 true 7 (initScene gTest)
    (AnimKind.energyChange 5) sTurboBusy [mkAtom (AnimKind.energyChange 5)]
    rfl (by decide) (by decide)
  exact ⟨h.1, h.2.1, h.2.2.1, h.2.2.2⟩

end CCA












